import Mathlib

/-!
Verification of the adversarial search engine of the Udacity isolation agent
(`src/search/my_custom_player.py`) and of the toy `GameState`
(`src/multiagent environments/solution.py`).

Conventions of the shallow embedding:
* Python floats that only ever hold integers or the two infinities
  (`best_score`, `alpha`, `beta`, `utility`, heuristic scores) are modelled by
  `EInt := WithBot (WithTop ℤ)`, whose `⊥`/`⊤` play the role of
  `float('-inf')` / `float('inf')`.
* The UCT score of `Node.best_child` uses `math.sqrt` and `math.log`; it is
  modelled over `ℝ` with `Real.sqrt` and `Real.log`, and the running
  `max_uct` (initialised to `float('-inf')`) lives in `EReal`.
* `random.choice(xs)` is modelled by an oracle stream `rng : ℕ → ℕ`; the k-th
  call picks `xs[rng k % xs.length]`.  An exhausted/impossible pick (Python
  `IndexError`) and every other Python exception is modelled by `Option.none`.
* Loops whose termination depends on the game (the rollout while-loop, the
  descent of `traverse`) take explicit fuel; running out of fuel yields `none`,
  which only ever weakens claims stated conditionally on a `some` result.
* The wall-clock budget of `monte_carlo_tree_search` is external real time; it
  is modelled by the number `iters` of completed loop iterations, which is the
  quantity the claims talk about.
-/

/-- Extended integers: the value domain of the alpha-beta searcher.
`⊥` is `float('-inf')`, `⊤` is `float('inf')`, and finite heuristic values are
integers. -/
abbrev EInt : Type := WithBot (WithTop ℤ)

/-- Coercion of a plain integer heuristic value into `EInt`. -/
def EInt.int (z : ℤ) : EInt := ((z : WithTop ℤ) : EInt)

/-- The external GameState capability consumed by the searchers
(spec §4.1): legal-move enumeration, transition, active player, ply counter
and terminal test.  `result` is only invoked by the searchers on actions drawn
from `actions`, so it is total here; the checked transition of the concrete
toy `GameState` is embedded separately.  The `winner` field is
*modelled from the spec*: `isolation.Isolation.utility` is not under `src/`,
and spec §4.1/§8 describe it as "+∞ if `playerId` is the winner, -∞ otherwise
(zero-sum, no draws)", so a terminal state carries the identity of its unique
winner. -/
structure AGame (σ : Type) (α : Type) where
  actions : σ → List α
  result : σ → α → σ
  player : σ → ℕ
  plyCount : σ → ℕ
  terminal : σ → Bool
  winner : σ → ℕ

/-- Modelled from the spec: `GameState.utility(playerId)` of the external
isolation library (not under `src/`), per spec §4.1: defined at terminal
states, `+∞` if `playerId` is the winner and `-∞` otherwise. -/
def utility {σ α : Type} (G : AGame σ α) (s : σ) (pid : ℕ) : EInt :=
  if G.winner s = pid then ⊤ else ⊥

/-!  ## Alpha-beta minimax (`CustomPlayer.min_value` / `max_value`)

The Python recursion decrements `depth` and tests `depth <= 0`, so the depth
argument is a natural number.  The `for`-loops over `actions()` with running
value `v` and window updates are embedded as the list recursions `maxLoop` /
`minLoop`; the early `return` on `v >= beta` (resp. `v <= alpha`) is the
pruning branch.  `sc` is `self.score` bound to the searching player. -/

/-- The `for`-loop body of `CustomPlayer.max_value`: running value `v`
(initially `float('-inf')`), running `alpha`, fixed `beta`, and an early
`return v` as soon as `v >= beta`.  `child a al` stands for the recursive call
`self.min_value(game_state.result(a), alpha, beta, depth - 1)`. -/
def maxLoop {α : Type} (be : EInt) (child : α → EInt → EInt) :
    List α → EInt → EInt → EInt
  | [], v, _ => v
  | a :: rest, v, al =>
    let v' := max v (child a al)
    if be ≤ v' then v' else maxLoop be child rest v' (max al v')

/-- The `for`-loop body of `CustomPlayer.min_value`: running value `v`
(initially `float('inf')`), running `beta`, fixed `alpha`, and an early
`return v` as soon as `v <= alpha`. -/
def minLoop {α : Type} (al : EInt) (child : α → EInt → EInt) :
    List α → EInt → EInt → EInt
  | [], v, _ => v
  | a :: rest, v, be =>
    let v' := min v (child a be)
    if v' ≤ al then v' else minLoop al child rest v' (min be v')

mutual

def maxValue {σ α : Type} (G : AGame σ α) (sc : σ → ℤ) (pid : ℕ) :
    ℕ → σ → EInt → EInt → EInt
  | d, s, al, be =>
    if G.terminal s then utility G s pid
    else
      match d with
      | 0 => EInt.int (sc s)
      | d' + 1 =>
        maxLoop be (fun a al' => minValue G sc pid d' (G.result s a) al' be)
          (G.actions s) ⊥ al

def minValue {σ α : Type} (G : AGame σ α) (sc : σ → ℤ) (pid : ℕ) :
    ℕ → σ → EInt → EInt → EInt
  | d, s, al, be =>
    if G.terminal s then utility G s pid
    else
      match d with
      | 0 => EInt.int (sc s)
      | d' + 1 =>
        minLoop al (fun a be' => maxValue G sc pid d' (G.result s a) al be')
          (G.actions s) ⊤ be

end

/-! Modelled from the spec (§8, "full minimax (no depth cutoff, no pruning)
... return the same value at the root"): `mmMax`/`mmMin` are the plain
depth-limited minimax values with no pruning, the same heuristic at depth 0
and `utility` at terminal states.  They are the comparison definitions for
the refinement claim C3, written from the spec's words, not from the source. -/

mutual

def mmMax {σ α : Type} (G : AGame σ α) (sc : σ → ℤ) (pid : ℕ) :
    ℕ → σ → EInt
  | d, s =>
    if G.terminal s then utility G s pid
    else
      match d with
      | 0 => EInt.int (sc s)
      | d' + 1 =>
        (G.actions s).foldl (fun v a => max v (mmMin G sc pid d' (G.result s a))) ⊥

def mmMin {σ α : Type} (G : AGame σ α) (sc : σ → ℤ) (pid : ℕ) :
    ℕ → σ → EInt
  | d, s =>
    if G.terminal s then utility G s pid
    else
      match d with
      | 0 => EInt.int (sc s)
      | d' + 1 =>
        (G.actions s).foldl (fun v a => min v (mmMax G sc pid d' (G.result s a))) ⊤

end

/-- The top-level loop of `CustomPlayer.alpha_beta_search`.  The accumulator
carries `(alpha, best_score, best_move)` exactly as the Python loop does; the
extra boolean records whether the `elif best_move is None` branch was ever
taken (it is ghost instrumentation for the dead-branch claims and does not
influence the computation).  `child a al` stands for
`self.min_value(game_state.result(a), alpha, beta, depth - 1)` with
`beta = float('inf')` fixed. -/
def absLoop {α : Type} (child : α → EInt → EInt) :
    List α → EInt → EInt → Option α → Bool → EInt × Option α × Bool
  | [], _, bs, bm, flag => (bs, bm, flag)
  | a :: rest, al, bs, bm, flag =>
    let v := child a al
    let al' := max al v
    if bs < v then absLoop child rest al' v (some a) flag
    else if bm.isNone then absLoop child rest al' v (some a) true
    else absLoop child rest al' bs bm flag

/-- `CustomPlayer.alpha_beta_search(game_state, depth)`: `alpha` and
`best_score` start at `float('-inf')`, `beta` stays `float('inf')`, and
`best_move` starts as `None`.  Returns `(best_score, best_move, elif-flag)`;
the Python function returns the `best_move` component. -/
def alphaBetaSearch {σ α : Type} (G : AGame σ α) (sc : σ → ℤ) (pid : ℕ)
    (s : σ) (depth : ℕ) : EInt × Option α × Bool :=
  absLoop (fun a al => minValue G sc pid (depth - 1) (G.result s a) al ⊤)
    (G.actions s) ⊥ ⊥ none false

/-- Fail-soft alpha-beta correctness bounds: a pruned result below `alpha` is
an upper bound on the true value, a pruned result above `beta` is a lower
bound, and a result strictly inside the window is exact. -/
def FS (r m al be : EInt) : Prop :=
  (r ≤ al → m ≤ r) ∧ (be ≤ r → r ≤ m) ∧ (al < r → r < be → r = m)

lemma foldl_max_init {α β : Type} [LinearOrder β] [OrderBot β] (f : α → β) :
    ∀ (l : List α) (v : β),
      l.foldl (fun w a => max w (f a)) v = max v (l.foldl (fun w a => max w (f a)) ⊥) := by
  intro l
  induction l with
  | nil => intro v; simp
  | cons a t ih =>
    intro v
    simp only [List.foldl_cons]
    rw [ih (max v (f a)), ih (max ⊥ (f a))]
    simp [max_assoc]

lemma foldl_min_init {α β : Type} [LinearOrder β] [OrderTop β] (f : α → β) :
    ∀ (l : List α) (v : β),
      l.foldl (fun w a => min w (f a)) v = min v (l.foldl (fun w a => min w (f a)) ⊤) := by
  intro l
  induction l with
  | nil => intro v; simp
  | cons a t ih =>
    intro v
    simp only [List.foldl_cons]
    rw [ih (min v (f a)), ih (min ⊤ (f a))]
    simp [min_assoc]

lemma le_maxLoop {α : Type} (be : EInt) (child : α → EInt → EInt) :
    ∀ (as : List α) (v al : EInt), v ≤ maxLoop be child as v al := by
  intro as
  induction as with
  | nil => intro v al; simp [maxLoop]
  | cons a t ih =>
    intro v al
    rw [maxLoop]
    split
    · exact le_max_left _ _
    · exact le_trans (le_max_left _ _) (ih _ _)

lemma minLoop_le {α : Type} (al : EInt) (child : α → EInt → EInt) :
    ∀ (as : List α) (v be : EInt), minLoop al child as v be ≤ v := by
  intro as
  induction as with
  | nil => intro v be; simp [minLoop]
  | cons a t ih =>
    intro v be
    rw [minLoop]
    split
    · exact min_le_left _ _
    · exact le_trans (ih _ _) (min_le_left _ _)

lemma maxLoop_FS {α : Type} (be : EInt) (child : α → EInt → EInt) (mc : α → EInt)
    (hchild : ∀ (a : α) (al' : EInt), al' < be → FS (child a al') (mc a) al' be) :
    ∀ (as : List α) (v al0 : EInt), max al0 v < be →
      FS (maxLoop be child as v (max al0 v))
        (as.foldl (fun w a => max w (mc a)) v) (max al0 v) be := by
  intro as
  induction as with
  | nil =>
    intro v al0 h
    rw [maxLoop]
    exact ⟨fun _ => le_rfl, fun _ => le_rfl, fun _ _ => rfl⟩
  | cons a rest ih =>
    intro v al0 h
    rw [maxLoop, List.foldl_cons]
    set rc := child a (max al0 v) with hrc_def
    have hFS : FS rc (mc a) (max al0 v) be := hchild a (max al0 v) h
    have hv_lt : v < be := lt_of_le_of_lt (le_max_right al0 v) h
    have hal0_lt : al0 < be := lt_of_le_of_lt (le_max_left al0 v) h
    by_cases hpr : be ≤ max v rc
    · rw [if_pos hpr]
      refine ⟨?_, ?_, ?_⟩
      · intro hle
        exact absurd ((hpr.trans hle).trans_lt h) (lt_irrefl be)
      · intro _
        have hrcbe : be ≤ rc := by
          by_contra hcon
          exact absurd (max_lt hv_lt (not_le.mp hcon)) (not_lt.mpr hpr)
        have hinit : max v (mc a) ≤
            List.foldl (fun w b => max w (mc b)) (max v (mc a)) rest := by
          rw [foldl_max_init]
          exact le_max_left _ _
        exact le_trans (max_le_max le_rfl (hFS.2.1 hrcbe)) hinit
      · intro _ h2
        exact absurd (hpr.trans_lt h2) (lt_irrefl be)
    · rw [if_neg hpr]
      have hv' : max v rc < be := not_le.mp hpr
      set S := rest.foldl (fun w b => max w (mc b)) (⊥ : EInt) with hS_def
      have hmS : rest.foldl (fun w b => max w (mc b)) (max v rc) = max (max v rc) S :=
        foldl_max_init _ rest _
      have hmG : rest.foldl (fun w b => max w (mc b)) (max v (mc a)) = max (max v (mc a)) S :=
        foldl_max_init _ rest _
      by_cases hlow : rc ≤ max al0 v
      · have hmcrc : mc a ≤ rc := hFS.1 hlow
        have heq2 : max (max al0 v) (max v rc) = max al0 v :=
          max_eq_left (max_le (le_max_right al0 v) hlow)
        rw [heq2]
        have hbig : max al0 (max v rc) < be := max_lt hal0_lt hv'
        have heq1 : max al0 (max v rc) = max al0 v := by
          apply le_antisymm
          · exact max_le (le_max_left al0 v) (max_le (le_max_right al0 v) hlow)
          · exact max_le_max le_rfl (le_max_left v rc)
        have hrec := ih (max v rc) al0 (by rwa [heq1])
        rw [heq1] at hrec
        refine ⟨?_, ?_, ?_⟩
        · intro hle
          have hm' := hrec.1 hle
          rw [hmS] at hm'
          rcases max_le_iff.mp hm' with ⟨hvrc, hSle⟩
          rcases max_le_iff.mp hvrc with ⟨hvle, hrcle⟩
          rw [hmG]
          exact max_le (max_le hvle (hmcrc.trans hrcle)) hSle
        · intro hbe
          have hm' := hrec.2.1 hbe
          rw [hmS] at hm'
          rcases le_max_iff.mp hm' with hA | hS
          · have hlt2 : max v rc ≤ max al0 v := max_le (le_max_right al0 v) hlow
            exact absurd ((hA.trans hlt2).trans_lt (h.trans_le hbe))
              (lt_irrefl _)
          · rw [hmG]
            exact hS.trans (le_max_right _ _)
        · intro hgt hlt
          have hr := hrec.2.2 hgt hlt
          rw [hmS] at hr
          have hA_lt : max v rc < maxLoop be child rest (max v rc) (max al0 v) :=
            lt_of_le_of_lt (max_le (le_max_right al0 v) hlow) hgt
          have hSr : maxLoop be child rest (max v rc) (max al0 v) = S := by
            rcases max_choice (max v rc) S with hc | hc
            · rw [hr, hc] at hA_lt
              exact absurd hA_lt (lt_irrefl _)
            · rw [hr, hc]
          rw [hmG, hSr]
          have hvmc : max v (mc a) ≤ S := by
            apply max_le
            · exact le_of_lt (lt_of_le_of_lt (le_max_right al0 v) (hSr ▸ hgt))
            · exact le_of_lt
                (lt_of_le_of_lt (hmcrc.trans hlow) (hSr ▸ hgt))
          exact (max_eq_right hvmc).symm
      · have hgt2 : max al0 v < rc := not_le.mp hlow
        have hrcbe : rc < be := lt_of_le_of_lt (le_max_right v rc) hv'
        have hmc : rc = mc a := hFS.2.2 hgt2 hrcbe
        have hvmceq : max v (mc a) = max v rc := by rw [← hmc]
        rw [hvmceq]
        have halbig : max (max al0 v) (max v rc) = rc := by
          apply le_antisymm
          · exact max_le (le_of_lt hgt2)
              (max_le (le_trans (le_max_right al0 v) (le_of_lt hgt2)) le_rfl)
          · exact (le_max_right v rc).trans (le_max_right _ _)
        rw [halbig]
        have halbig2 : max al0 (max v rc) = rc := by
          apply le_antisymm
          · exact max_le ((le_max_left al0 v).trans (le_of_lt hgt2))
              (max_le ((le_max_right al0 v).trans (le_of_lt hgt2)) le_rfl)
          · exact (le_max_right v rc).trans (le_max_right _ _)
        have hrec := ih (max v rc) al0 (by rwa [halbig2])
        rw [halbig2] at hrec
        refine ⟨?_, ?_, ?_⟩
        · intro hle
          have : rc ≤ maxLoop be child rest (max v rc) rc :=
            (le_max_right v rc).trans (le_maxLoop be child rest (max v rc) rc)
          exact absurd (hgt2.trans_le (this.trans hle)) (lt_irrefl _)
        · exact hrec.2.1
        · intro _ hlt
          by_cases hr : maxLoop be child rest (max v rc) rc ≤ rc
          · have hreq : maxLoop be child rest (max v rc) rc = rc :=
              le_antisymm hr ((le_max_right v rc).trans (le_maxLoop be child rest _ _))
            have hm' := hrec.1 hr
            rw [hmS] at hm' ⊢
            apply le_antisymm
            · rw [hreq]
              exact (le_max_right v rc).trans (le_max_left _ _)
            · exact hm'
          · exact hrec.2.2 (not_le.mp hr) hlt

lemma minLoop_FS {α : Type} (al : EInt) (child : α → EInt → EInt) (mc : α → EInt)
    (hchild : ∀ (a : α) (be' : EInt), al < be' → FS (child a be') (mc a) al be') :
    ∀ (as : List α) (v be0 : EInt), al < min be0 v →
      FS (minLoop al child as v (min be0 v))
        (as.foldl (fun w a => min w (mc a)) v) al (min be0 v) := by
  intro as
  induction as with
  | nil =>
    intro v be0 h
    rw [minLoop]
    exact ⟨fun _ => le_rfl, fun _ => le_rfl, fun _ _ => rfl⟩
  | cons a rest ih =>
    intro v be0 h
    rw [minLoop, List.foldl_cons]
    set rc := child a (min be0 v) with hrc_def
    have hFS : FS rc (mc a) al (min be0 v) := hchild a (min be0 v) h
    have hv_gt : al < v := h.trans_le (min_le_right be0 v)
    have hbe0_gt : al < be0 := h.trans_le (min_le_left be0 v)
    by_cases hpr : min v rc ≤ al
    · rw [if_pos hpr]
      refine ⟨?_, ?_, ?_⟩
      · intro _
        have hrcal : rc ≤ al := by
          by_contra hcon
          exact absurd (lt_min hv_gt (not_le.mp hcon)) (not_lt.mpr hpr)
        have hinit : List.foldl (fun w b => min w (mc b)) (min v (mc a)) rest ≤
            min v (mc a) := by
          rw [foldl_min_init]
          exact min_le_left _ _
        exact le_trans hinit (min_le_min le_rfl (hFS.1 hrcal))
      · intro hbe
        exact absurd ((hbe.trans hpr).trans_lt h) (lt_irrefl _)
      · intro hgt _
        exact absurd hgt (not_lt.mpr hpr)
    · rw [if_neg hpr]
      have hpr' : al < min v rc := not_le.mp hpr
      set S := rest.foldl (fun w b => min w (mc b)) (⊤ : EInt) with hS_def
      have hmS : rest.foldl (fun w b => min w (mc b)) (min v rc) = min (min v rc) S :=
        foldl_min_init _ rest _
      have hmG : rest.foldl (fun w b => min w (mc b)) (min v (mc a)) = min (min v (mc a)) S :=
        foldl_min_init _ rest _
      by_cases hhigh : min be0 v ≤ rc
      · have hrcmc : rc ≤ mc a := hFS.2.1 hhigh
        have heq2 : min (min be0 v) (min v rc) = min be0 v :=
          min_eq_left (le_min (min_le_right be0 v) hhigh)
        rw [heq2]
        have heq1 : min be0 (min v rc) = min be0 v := by
          apply le_antisymm
          · exact min_le_min le_rfl (min_le_left v rc)
          · exact le_min (min_le_left be0 v) (le_min (min_le_right be0 v) hhigh)
        have hrec := ih (min v rc) be0 (by rwa [heq1])
        rw [heq1] at hrec
        refine ⟨?_, ?_, ?_⟩
        · intro hle
          have hm' := hrec.1 hle
          rw [hmS] at hm'
          rcases min_le_iff.mp hm' with hA | hS
          · rcases min_le_iff.mp hA with h1 | h1
            · exact absurd ((h1.trans hle).trans_lt (h.trans_le (min_le_right be0 v)))
                (lt_irrefl v)
            · exact absurd ((h1.trans hle).trans_lt (h.trans_le hhigh)) (lt_irrefl rc)
          · rw [hmG]
            exact (min_le_right _ S).trans hS
        · intro hbe
          have hm' := hrec.2.1 hbe
          rw [hmS] at hm'
          rcases le_min_iff.mp hm' with ⟨hvrc, hSge⟩
          rcases le_min_iff.mp hvrc with ⟨hvge, hrcge⟩
          rw [hmG]
          exact le_min (le_min hvge (hrcge.trans hrcmc)) hSge
        · intro hgt hlt
          have hr := hrec.2.2 hgt hlt
          rw [hmS] at hr
          have hA_gt : minLoop al child rest (min v rc) (min be0 v) < min v rc :=
            lt_min (hlt.trans_le (min_le_right be0 v)) (hlt.trans_le hhigh)
          have hSr : minLoop al child rest (min v rc) (min be0 v) = S := by
            rcases min_choice (min v rc) S with hc | hc
            · rw [hr, hc] at hA_gt
              exact absurd hA_gt (lt_irrefl _)
            · rw [hr, hc]
          rw [hmG, hSr]
          have hSmin : S ≤ min v (mc a) := by
            apply le_min
            · exact le_of_lt (lt_of_lt_of_le (hSr ▸ hA_gt) (min_le_left v rc)) |>.trans'
                (le_of_eq rfl)
            · exact le_of_lt
                (lt_of_lt_of_le (hSr ▸ hA_gt) ((min_le_right v rc).trans hrcmc))
          exact (min_eq_right hSmin).symm
      · have hgt2 : rc < min be0 v := not_le.mp hhigh
        have hrc_gt : al < rc := hpr'.trans_le (min_le_right v rc)
        have hmc : rc = mc a := hFS.2.2 hrc_gt hgt2
        have hvmceq : min v (mc a) = min v rc := by rw [← hmc]
        rw [hvmceq]
        have hkey : min v rc ≤ min be0 v :=
          le_min ((min_le_right v rc).trans
            (le_of_lt (hgt2.trans_le (min_le_left be0 v)))) (min_le_left v rc)
        have halbig : min (min be0 v) (min v rc) = min v rc := min_eq_right hkey
        rw [halbig]
        have halbig2 : min be0 (min v rc) = min v rc :=
          min_eq_right ((min_le_right v rc).trans
            (le_of_lt (hgt2.trans_le (min_le_left be0 v))))
        have hrec := ih (min v rc) be0 (by rwa [halbig2])
        rw [halbig2] at hrec
        refine ⟨?_, ?_, ?_⟩
        · exact hrec.1
        · intro hbe
          have hler : minLoop al child rest (min v rc) (min v rc) ≤ rc :=
            (minLoop_le al child rest (min v rc) (min v rc)).trans (min_le_right v rc)
          exact absurd (hbe.trans hler) (not_le.mpr hgt2)
        · intro hgt hlt
          by_cases hr : min v rc ≤ minLoop al child rest (min v rc) (min v rc)
          · have hreq : minLoop al child rest (min v rc) (min v rc) = min v rc :=
              le_antisymm (minLoop_le al child rest _ _) hr
            apply le_antisymm (hrec.2.1 hr)
            rw [hmS, hreq]
            exact min_le_left _ _
          · exact hrec.2.2 hgt (not_le.mp hr)

theorem valueFS {σ α : Type} (G : AGame σ α) (sc : σ → ℤ) (pid : ℕ) :
    ∀ (d : ℕ),
      (∀ (s : σ) (al be : EInt), al < be →
        FS (maxValue G sc pid d s al be) (mmMax G sc pid d s) al be) ∧
      (∀ (s : σ) (al be : EInt), al < be →
        FS (minValue G sc pid d s al be) (mmMin G sc pid d s) al be) := by
  intro d
  induction d with
  | zero =>
    constructor
    · intro s al be _
      have hrm : maxValue G sc pid 0 s al be = mmMax G sc pid 0 s := rfl
      rw [hrm]
      exact ⟨fun _ => le_rfl, fun _ => le_rfl, fun _ _ => rfl⟩
    · intro s al be _
      have hrm : minValue G sc pid 0 s al be = mmMin G sc pid 0 s := rfl
      rw [hrm]
      exact ⟨fun _ => le_rfl, fun _ => le_rfl, fun _ _ => rfl⟩
  | succ d' ih =>
    constructor
    · intro s al be h
      have h1 : maxValue G sc pid (d' + 1) s al be =
          if G.terminal s = true then utility G s pid
          else maxLoop be (fun a al' => minValue G sc pid d' (G.result s a) al' be)
            (G.actions s) ⊥ al := rfl
      have h2 : mmMax G sc pid (d' + 1) s =
          if G.terminal s = true then utility G s pid
          else (G.actions s).foldl
            (fun v a => max v (mmMin G sc pid d' (G.result s a))) ⊥ := rfl
      by_cases ht : G.terminal s = true
      · rw [h1, h2]
        simp only [if_pos ht]
        exact ⟨fun _ => le_rfl, fun _ => le_rfl, fun _ _ => rfl⟩
      · rw [h1, h2]
        simp only [if_neg ht]
        have hml := maxLoop_FS be
          (fun a al' => minValue G sc pid d' (G.result s a) al' be)
          (fun a => mmMin G sc pid d' (G.result s a))
          (fun a al' h' => ih.2 (G.result s a) al' be h')
          (G.actions s) ⊥ al (by rwa [max_eq_left bot_le])
        rw [max_eq_left bot_le] at hml
        exact hml
    · intro s al be h
      have h1 : minValue G sc pid (d' + 1) s al be =
          if G.terminal s = true then utility G s pid
          else minLoop al (fun a be' => maxValue G sc pid d' (G.result s a) al be')
            (G.actions s) ⊤ be := rfl
      have h2 : mmMin G sc pid (d' + 1) s =
          if G.terminal s = true then utility G s pid
          else (G.actions s).foldl
            (fun v a => min v (mmMax G sc pid d' (G.result s a))) ⊤ := rfl
      by_cases ht : G.terminal s = true
      · rw [h1, h2]
        simp only [if_pos ht]
        exact ⟨fun _ => le_rfl, fun _ => le_rfl, fun _ _ => rfl⟩
      · rw [h1, h2]
        simp only [if_neg ht]
        have hml := minLoop_FS al
          (fun a be' => maxValue G sc pid d' (G.result s a) al be')
          (fun a => mmMax G sc pid d' (G.result s a))
          (fun a be' h' => ih.1 (G.result s a) al be' h')
          (G.actions s) ⊤ be (by rwa [min_eq_left le_top])
        rw [min_eq_left le_top] at hml
        exact hml

lemma maxValue_eq_mmMax {σ α : Type} (G : AGame σ α) (sc : σ → ℤ) (pid : ℕ)
    (d : ℕ) (s : σ) : maxValue G sc pid d s ⊥ ⊤ = mmMax G sc pid d s := by
  have hFS := (valueFS G sc pid d).1 s ⊥ ⊤ bot_lt_top
  by_cases hb : maxValue G sc pid d s ⊥ ⊤ = ⊥
  · rw [hb]
    exact (le_bot_iff.mp (hb ▸ hFS.1 hb.le)).symm
  · by_cases ht : maxValue G sc pid d s ⊥ ⊤ = ⊤
    · rw [ht]
      exact (top_le_iff.mp (ht ▸ hFS.2.1 ht.ge)).symm
    · exact hFS.2.2 (bot_lt_iff_ne_bot.mpr hb) (lt_top_iff_ne_top.mpr ht)

lemma minValue_eq_mmMin {σ α : Type} (G : AGame σ α) (sc : σ → ℤ) (pid : ℕ)
    (d : ℕ) (s : σ) : minValue G sc pid d s ⊥ ⊤ = mmMin G sc pid d s := by
  have hFS := (valueFS G sc pid d).2 s ⊥ ⊤ bot_lt_top
  by_cases hb : minValue G sc pid d s ⊥ ⊤ = ⊥
  · rw [hb]
    exact (le_bot_iff.mp (hb ▸ hFS.1 hb.le)).symm
  · by_cases ht : minValue G sc pid d s ⊥ ⊤ = ⊤
    · rw [ht]
      exact (top_le_iff.mp (ht ▸ hFS.2.1 ht.ge)).symm
    · exact hFS.2.2 (bot_lt_iff_ne_bot.mpr hb) (lt_top_iff_ne_top.mpr ht)

lemma absLoop_flag_some {α : Type} (child : α → EInt → EInt) :
    ∀ (as : List α) (al bs : EInt) (a0 : α) (flag : Bool),
      (absLoop child as al bs (some a0) flag).2.2 = flag := by
  intro as
  induction as with
  | nil => intro al bs a0 flag; rfl
  | cons a rest ih =>
    intro al bs a0 flag
    rw [absLoop]
    by_cases hv : bs < child a al
    · rw [if_pos hv]
      exact ih _ _ _ _
    · rw [if_neg hv]
      simp only [Option.isNone_some, Bool.false_eq_true, if_false]
      exact ih _ _ _ _

lemma absLoop_some {α : Type} (child : α → EInt → EInt) :
    ∀ (as : List α) (al bs : EInt) (a0 : α) (flag : Bool),
      ∃ a', (absLoop child as al bs (some a0) flag).2.1 = some a' ∧
        (a' = a0 ∨ a' ∈ as) := by
  intro as
  induction as with
  | nil => intro al bs a0 flag; exact ⟨a0, rfl, Or.inl rfl⟩
  | cons a rest ih =>
    intro al bs a0 flag
    rw [absLoop]
    by_cases hv : bs < child a al
    · rw [if_pos hv]
      obtain ⟨a', h1, h2⟩ := ih (max al (child a al)) (child a al) a flag
      refine ⟨a', h1, Or.inr ?_⟩
      rcases h2 with h2 | h2
      · exact h2 ▸ List.mem_cons_self a rest
      · exact List.mem_cons_of_mem a h2
    · rw [if_neg hv]
      simp only [Option.isNone_some, Bool.false_eq_true, if_false]
      obtain ⟨a', h1, h2⟩ := ih (max al (child a al)) bs a0 flag
      refine ⟨a', h1, ?_⟩
      rcases h2 with h2 | h2
      · exact Or.inl h2
      · exact Or.inr (List.mem_cons_of_mem a h2)

/-- Characterisation of the `elif best_move is None` branch of
`alpha_beta_search`: it runs exactly when the action list is non-empty and the
first evaluated action already has value `float('-inf')`, because only on the
very first iteration can `best_move` still be `None`, and there the guard
`v > best_score` fails exactly for `v = float('-inf')`. -/
lemma absFlag_iff {σ α : Type} (G : AGame σ α) (sc : σ → ℤ) (pid : ℕ)
    (s : σ) (depth : ℕ) :
    (alphaBetaSearch G sc pid s depth).2.2 = true ↔
      ∃ (a : α) (rest : List α), G.actions s = a :: rest ∧
        minValue G sc pid (depth - 1) (G.result s a) ⊥ ⊤ = ⊥ := by
  rw [alphaBetaSearch]
  cases hs : G.actions s with
  | nil =>
    simp only [absLoop]
    constructor
    · intro h; cases h
    · rintro ⟨a, rest, h, -⟩; cases h
  | cons a rest =>
    rw [absLoop]
    by_cases hv : (⊥ : EInt) < minValue G sc pid (depth - 1) (G.result s a) ⊥ ⊤
    · rw [if_pos hv, absLoop_flag_some]
      constructor
      · intro h; cases h
      · rintro ⟨a', rest', heq, hbot⟩
        rw [List.cons.injEq] at heq
        rw [heq.1] at hv
        rw [hbot] at hv
        exact absurd hv (lt_irrefl _)
    · rw [if_neg hv]
      simp only [Option.isNone_none, if_true]
      rw [absLoop_flag_some]
      have hbot : minValue G sc pid (depth - 1) (G.result s a) ⊥ ⊤ = ⊥ :=
        le_bot_iff.mp (not_lt.mp hv)
      exact ⟨fun _ => ⟨a, rest, rfl, hbot⟩, fun _ => rfl⟩

/-- The best score computed by the `alpha_beta_search` loop coincides with the
unpruned fold of the true minimax values of the root's children: within that
loop `alpha` and `best_score` always hold the same value, and the fail-soft
bounds make each pruned child contribution irrelevant to the running max. -/
lemma absLoop_bs {σ α : Type} (G : AGame σ α) (sc : σ → ℤ) (pid : ℕ)
    (d : ℕ) (s : σ) :
    ∀ (as : List α) (b : EInt) (bm : Option α) (flag : Bool),
      (bm = none → b = ⊥) →
      (absLoop (fun a al => minValue G sc pid d (G.result s a) al ⊤) as b b bm flag).1 =
        as.foldl (fun w a => max w (mmMin G sc pid d (G.result s a))) b := by
  intro as
  induction as with
  | nil => intro b bm flag _; rfl
  | cons a rest ih =>
    intro b bm flag hbm
    rw [absLoop, List.foldl_cons]
    set rc := minValue G sc pid d (G.result s a) b ⊤ with hrc_def
    set mc := mmMin G sc pid d (G.result s a) with hmc_def
    have hstep : max b rc = max b mc := by
      by_cases htop : b = ⊤
      · rw [htop, max_eq_left le_top, max_eq_left le_top]
      · have hFS : FS rc mc b ⊤ :=
          (valueFS G sc pid d).2 (G.result s a) b ⊤ (lt_top_iff_ne_top.mpr htop)
        by_cases hlow : rc ≤ b
        · rw [max_eq_left hlow, max_eq_left ((hFS.1 hlow).trans hlow)]
        · by_cases hhigh : rc = ⊤
          · have hmceq : mc = ⊤ := top_le_iff.mp (hhigh ▸ hFS.2.1 hhigh.ge)
            rw [hhigh, hmceq]
          · rw [hFS.2.2 (not_le.mp hlow) (lt_top_iff_ne_top.mpr hhigh)]
    by_cases hv : b < rc
    · rw [if_pos hv, max_eq_right (le_of_lt hv)]
      have := ih rc (some a) flag (by intro h; cases h)
      rw [this]
      have : max b mc = rc := by rw [← hstep, max_eq_right (le_of_lt hv)]
      rw [this]
    · rw [if_neg hv]
      have hrcb : rc ≤ b := not_lt.mp hv
      have hmaxb : max b rc = b := max_eq_left hrcb
      have hmcb : max b mc = b := by rw [← hstep, hmaxb]
      cases bm with
      | none =>
        have hb : b = ⊥ := hbm rfl
        simp only [Option.isNone_none, if_true]
        have hrcbot : rc = ⊥ := le_bot_iff.mp (hb ▸ hrcb)
        rw [hmaxb, hmcb, hb, hrcbot]
        exact ih ⊥ (some a) true (fun _ => rfl)
      | some a0 =>
        simp only [Option.isNone_some, Bool.false_eq_true, if_false]
        rw [hmaxb]
        have := ih b (some a0) flag (by intro h; cases h)
        rw [this, hmcb]

/-- A tiny concrete game used for counterexamples and witnesses: from state 0
the only action `5` leads to the terminal state 1, whose winner is player 1,
so the searching player 0 is forced to lose.  All other states are terminal. -/
def lineG : AGame ℕ ℕ where
  actions := fun s => if s = 0 then [5] else []
  result := fun s _ => s + 1
  player := fun s => s % 2
  plyCount := fun _ => 3
  terminal := fun s => decide (s ≠ 0)
  winner := fun _ => 1

/-- C3: for every state and every depth, the value computed by the alpha-beta
searcher (`max_value`/`min_value` with the initial window `(-inf, inf)` and
pruning) equals the value of plain depth-limited minimax with no pruning, with
the same heuristic at depth 0 and `utility` at terminal states; moreover on a
non-terminal state and positive depth the `best_score` accumulated by the
`alpha_beta_search` root loop also equals the plain minimax root value. -/
theorem C3_alphabeta_equals_minimax {σ α : Type} (G : AGame σ α) (sc : σ → ℤ)
    (pid : ℕ) (d : ℕ) (s : σ) :
    maxValue G sc pid d s ⊥ ⊤ = mmMax G sc pid d s ∧
    minValue G sc pid d s ⊥ ⊤ = mmMin G sc pid d s ∧
    (G.terminal s = false → 1 ≤ d →
      (alphaBetaSearch G sc pid s d).1 = mmMax G sc pid d s) := by
  refine ⟨maxValue_eq_mmMax G sc pid d s, minValue_eq_mmMin G sc pid d s, ?_⟩
  intro ht hd
  obtain ⟨e, rfl⟩ : ∃ e, d = e + 1 := ⟨d - 1, (Nat.succ_pred_eq_of_pos hd).symm⟩
  rw [alphaBetaSearch]
  have h1 : (absLoop (fun a al => minValue G sc pid (e + 1 - 1) (G.result s a) al ⊤)
      (G.actions s) ⊥ ⊥ none false).1 =
      (G.actions s).foldl (fun w a => max w (mmMin G sc pid (e + 1 - 1) (G.result s a))) ⊥ :=
    absLoop_bs G sc pid (e + 1 - 1) s (G.actions s) ⊥ none false (fun _ => rfl)
  rw [h1]
  have h2 : mmMax G sc pid (e + 1) s =
      if G.terminal s = true then utility G s pid
      else (G.actions s).foldl
        (fun v a => max v (mmMin G sc pid e (G.result s a))) ⊥ := rfl
  rw [h2, if_neg (by rw [ht]; exact Bool.false_ne_true)]
  rfl

/-- Witness for C3 at a concrete input: `lineG` at state 0, depth 1. -/
theorem C3_witness :
    lineG.terminal 0 = false ∧ 1 ≤ 1 ∧
      (alphaBetaSearch lineG (fun _ => 0) 0 0 1).1 = mmMax lineG (fun _ => 0) 0 1 0 :=
  ⟨by decide, le_rfl,
    (C3_alphabeta_equals_minimax lineG (fun _ => 0) 0 1 0).2.2 (by decide) le_rfl⟩

/-- C4 counterexample: the claim says the `elif best_move is None` branch of
`alpha_beta_search` can never execute.  On the concrete forced-loss game
`lineG` at state 0 with depth 1 the first (only) action evaluates to
`float('-inf')`, the guard `v > best_score` fails, and the branch executes:
the ghost flag recording it is `true`. -/
theorem C4_counterexample :
    (alphaBetaSearch lineG (fun _ => 0) 0 0 1).2.2 = true := by decide

/-- C4 (amended): the `elif best_move is None` branch executes exactly when
the action list is non-empty and the first evaluated action's backed-up value
is `float('-inf')` (a forced loss for the searcher); with `best_score`
initialised to `float('-inf')`, the first action satisfies `v > best_score`
only when its value exceeds `-inf`, and from the second iteration on
`best_move` is never `None`. -/
theorem C4_amended {σ α : Type} (G : AGame σ α) (sc : σ → ℤ) (pid : ℕ)
    (s : σ) (depth : ℕ) :
    (alphaBetaSearch G sc pid s depth).2.2 = true ↔
      ∃ (a : α) (rest : List α), G.actions s = a :: rest ∧
        minValue G sc pid (depth - 1) (G.result s a) ⊥ ⊤ = ⊥ :=
  absFlag_iff G sc pid s depth

/-- C10: whenever the root has at least one legal action, `alpha_beta_search`
returns one of those actions and never `None`: the first iteration sets
`best_move` (through the `v > best_score` branch or the `elif` fallback), and
afterwards `best_move` always holds some element of the action list. -/
theorem C10_returns_legal_action {σ α : Type} (G : AGame σ α) (sc : σ → ℤ)
    (pid : ℕ) (s : σ) (depth : ℕ) (h : G.actions s ≠ []) :
    ∃ a, (alphaBetaSearch G sc pid s depth).2.1 = some a ∧ a ∈ G.actions s := by
  rw [alphaBetaSearch]
  cases hs : G.actions s with
  | nil => exact absurd hs h
  | cons a rest =>
    rw [absLoop]
    set child := fun (a : α) (al : EInt) =>
      minValue G sc pid (depth - 1) (G.result s a) al ⊤ with hchild
    by_cases hv : (⊥ : EInt) < child a ⊥
    · rw [if_pos hv]
      obtain ⟨a', h1, h2⟩ := absLoop_some child rest (max ⊥ (child a ⊥)) (child a ⊥) a false
      refine ⟨a', h1, ?_⟩
      rcases h2 with h2 | h2
      · exact h2 ▸ List.mem_cons_self a rest
      · exact List.mem_cons_of_mem a h2
    · rw [if_neg hv]
      simp only [Option.isNone_none, if_true]
      obtain ⟨a', h1, h2⟩ := absLoop_some child rest (max ⊥ (child a ⊥)) (child a ⊥) a true
      refine ⟨a', h1, ?_⟩
      rcases h2 with h2 | h2
      · exact h2 ▸ List.mem_cons_self a rest
      · exact List.mem_cons_of_mem a h2

/-- Witness for C10 at a concrete input: `lineG` at state 0 has the single
action 5, and `alpha_beta_search` returns it. -/
theorem C10_witness :
    lineG.actions 0 ≠ [] ∧
      ∃ a, (alphaBetaSearch lineG (fun _ => 0) 0 0 1).2.1 = some a ∧
        a ∈ lineG.actions 0 :=
  ⟨by decide, C10_returns_legal_action lineG (fun _ => 0) 0 0 1 (by decide)⟩

/-! ## The toy `GameState` of `src/multiagent environments/solution.py`

A 3×2 queens-isolation board.  `board[x][y]` is 0 for open and 1 for blocked;
the initial board blocks cell (2, 1).  Locations and actions are `(x, y)`
integer pairs as in the Python code.  `result` asserts legality before acting;
the failing `assert` (Python `IllegalActionError`) is modelled by `none`.
Since states are immutable Lean values, the receiver of `result` is trivially
left unmodified; `deepcopy` is the identity on values. -/

/-- The eight movement directions of the Python module. -/
def DIRECTIONS : List (ℤ × ℤ) :=
  [(1, 0), (1, -1), (0, -1), (-1, -1), (-1, 0), (-1, 1), (0, 1), (1, 1)]

structure GameState where
  board : List (List ℕ)
  activePlayersIndex : ℕ
  playerLocations : List (Option (ℤ × ℤ))
  deriving DecidableEq

/-- `GameState.__init__`. -/
def GameState.init : GameState :=
  { board := [[0, 0], [0, 0], [0, 1]]
    activePlayersIndex := 0
    playerLocations := [none, none] }

/-- Read `board[x][y]`; the Python code only indexes inside the checked
bounds, so the default is never hit on those calls. -/
def boardAt (b : List (List ℕ)) (x y : ℤ) : ℕ :=
  (b.getD x.toNat []).getD y.toNat 0

/-- One direction of the `while` loop of `GameState.liberties`: walk from
`(x, y)` by `(dx, dy)` while inside the 3×2 board, stop at the first blocked
cell, collect the open cells.  The walk advances every step inside a board of
diameter 3, so fuel 4 is an upper bound on its length and the fuel is never
exhausted. -/
def rayWalk (b : List (List ℕ)) (dx dy : ℤ) : ℕ → ℤ → ℤ → List (ℤ × ℤ)
  | 0, _, _ => []
  | f + 1, x, y =>
    if 0 ≤ x + dx ∧ x + dx < 3 ∧ 0 ≤ y + dy ∧ y + dy < 2 then
      if boardAt b (x + dx) (y + dy) ≠ 0 then []
      else (x + dx, y + dy) :: rayWalk b dx dy f (x + dx) (y + dy)
    else []

/-- `GameState.liberties(loc)`: all open cells (row-major) when `loc` is
`None`, otherwise the open cells reachable along the eight rays. -/
def GameState.liberties (g : GameState) (loc : Option (ℤ × ℤ)) : List (ℤ × ℤ) :=
  match loc with
  | none =>
    (List.range 3).flatMap fun x =>
      (List.range 2).flatMap fun y =>
        if boardAt g.board x y = 0 then [((x : ℤ), (y : ℤ))] else []
  | some (lx, ly) =>
    DIRECTIONS.flatMap fun d => rayWalk g.board d.1 d.2 4 lx ly

/-- `GameState.actions()`. -/
def GameState.actions (g : GameState) : List (ℤ × ℤ) :=
  g.liberties (g.playerLocations.getD g.activePlayersIndex none)

/-- `GameState.player()`. -/
def GameState.player (g : GameState) : ℕ := g.activePlayersIndex

/-- `GameState.result(action)`: `none` models the failing
`assert action in self.actions()` (an `IllegalActionError`); otherwise a new
state with `board[action[0]][action[1]] = 1`, the active player's location
set to `action`, and the active player toggled. -/
def GameState.result (g : GameState) (a : ℤ × ℤ) : Option GameState :=
  if a ∈ g.actions then
    some
      { board := g.board.set a.1.toNat ((g.board.getD a.1.toNat []).set a.2.toNat 1)
        playerLocations := g.playerLocations.set g.activePlayersIndex (some a)
        activePlayersIndex := if g.activePlayersIndex = 0 then 1 else 0 }
  else none

/-- `GameState.terminal_test()`. -/
def GameState.terminal_test (g : GameState) : Bool :=
  (g.liberties (g.playerLocations.getD 0 none)).isEmpty ||
    (g.liberties (g.playerLocations.getD 1 none)).isEmpty

lemma rayWalk_bounds (b : List (List ℕ)) (dx dy : ℤ) :
    ∀ (f : ℕ) (x y : ℤ) (p : ℤ × ℤ), p ∈ rayWalk b dx dy f x y →
      0 ≤ p.1 ∧ p.1 < 3 ∧ 0 ≤ p.2 ∧ p.2 < 2 := by
  intro f
  induction f with
  | zero => intro x y p hp; cases hp
  | succ f ih =>
    intro x y p hp
    rw [rayWalk] at hp
    by_cases hin : 0 ≤ x + dx ∧ x + dx < 3 ∧ 0 ≤ y + dy ∧ y + dy < 2
    · rw [if_pos hin] at hp
      by_cases hb : boardAt b (x + dx) (y + dy) ≠ 0
      · rw [if_pos hb] at hp; cases hp
      · rw [if_neg hb] at hp
        rcases List.mem_cons.mp hp with h | h
        · rw [h]; exact hin
        · exact ih (x + dx) (y + dy) p h
    · rw [if_neg hin] at hp; cases hp

lemma liberties_bounds (g : GameState) (loc : Option (ℤ × ℤ)) (p : ℤ × ℤ)
    (hp : p ∈ g.liberties loc) : 0 ≤ p.1 ∧ p.1 < 3 ∧ 0 ≤ p.2 ∧ p.2 < 2 := by
  cases loc with
  | none =>
    simp only [GameState.liberties, List.mem_flatMap, List.mem_range] at hp
    obtain ⟨x, hx, y, hy, hmem⟩ := hp
    by_cases hb : boardAt g.board x y = 0
    · rw [if_pos hb] at hmem
      rcases List.mem_singleton.mp hmem with rfl
      refine ⟨Int.ofNat_nonneg x, ?_, Int.ofNat_nonneg y, ?_⟩
      · show (x : ℤ) < 3
        exact_mod_cast hx
      · show (y : ℤ) < 2
        exact_mod_cast hy
    · rw [if_neg hb] at hmem; cases hmem
  | some l =>
    obtain ⟨lx, ly⟩ := l
    simp only [GameState.liberties, List.mem_flatMap] at hp
    obtain ⟨d, _, hmem⟩ := hp
    exact rayWalk_bounds g.board d.1 d.2 4 lx ly p hmem

lemma getD_set_self {β : Type} (l : List β) (i : ℕ) (x d : β) (h : i < l.length) :
    (l.set i x).getD i d = x := by
  simp [List.getD, List.getElem?_set_self', List.getElem?_eq_getElem h]

lemma getD_set_other {β : Type} (l : List β) (i j : ℕ) (x d : β) (h : i ≠ j) :
    (l.set i x).getD j d = l.getD j d := by
  simp [List.getD, List.getElem?_set_ne h]

/-- C8: `GameState.result(action)` fails (with the `IllegalActionError`
assert) exactly when the action is not in `actions()`; on success it returns
a new state with the active player toggled, the mover's location set to the
action, the target cell blocked, and everything else unchanged.  The receiver
itself is an immutable value, so it is unmodified in either case.  The
well-formedness hypotheses state that the board is the 3×2 grid and the
active index addresses one of the two location slots, as in every state
reachable from `GameState.init`. -/
theorem C8_result_checked (g : GameState) (a : ℤ × ℤ)
    (hw : g.activePlayersIndex < g.playerLocations.length)
    (hb3 : g.board.length = 3)
    (hb2 : ∀ row ∈ g.board, row.length = 2) :
    (g.result a = none ↔ a ∉ g.actions) ∧
    (∀ t, g.result a = some t →
      t.activePlayersIndex = (if g.activePlayersIndex = 0 then 1 else 0) ∧
      t.playerLocations.getD g.activePlayersIndex none = some a ∧
      (∀ j, j ≠ g.activePlayersIndex →
        t.playerLocations.getD j none = g.playerLocations.getD j none) ∧
      boardAt t.board a.1 a.2 = 1 ∧
      (∀ i j : ℕ, ((i : ℤ), (j : ℤ)) ≠ a → boardAt t.board i j = boardAt g.board i j)) := by
  constructor
  · by_cases hmem : a ∈ g.actions
    · rw [GameState.result, if_pos hmem]
      exact ⟨fun h => Option.noConfusion h, fun h => absurd hmem h⟩
    · rw [GameState.result, if_neg hmem]
      exact ⟨fun _ => hmem, fun _ => rfl⟩
  · intro t ht
    by_cases hmem : a ∈ g.actions
    · rw [GameState.result, if_pos hmem] at ht
      obtain rfl := (Option.some.injEq _ _).mp ht
      have hbnd := liberties_bounds g _ a hmem
      have ha1lt : a.1.toNat < g.board.length := by rw [hb3]; omega
      have hrow : g.board.getD a.1.toNat [] = g.board[a.1.toNat] :=
        List.getD_eq_getElem g.board [] ha1lt
      have hrowmem : g.board.getD a.1.toNat [] ∈ g.board := by
        rw [hrow]; exact List.getElem_mem ha1lt
      have hrowlen : (g.board.getD a.1.toNat []).length = 2 := hb2 _ hrowmem
      have ha2lt : a.2.toNat < (g.board.getD a.1.toNat []).length := by
        rw [hrowlen]; omega
      refine ⟨rfl, getD_set_self _ _ _ _ hw, ?_, ?_, ?_⟩
      · intro j hj
        exact getD_set_other _ _ _ _ _ (Ne.symm hj)
      · show boardAt (g.board.set a.1.toNat ((g.board.getD a.1.toNat []).set a.2.toNat 1))
          a.1 a.2 = 1
        rw [boardAt, getD_set_self _ _ _ _ ha1lt, getD_set_self _ _ _ _ ha2lt]
      · intro i j hij
        show boardAt (g.board.set a.1.toNat ((g.board.getD a.1.toNat []).set a.2.toNat 1))
          i j = boardAt g.board i j
        have hcases : (i : ℤ) ≠ a.1 ∨ (j : ℤ) ≠ a.2 := by
          by_contra hcon
          push_neg at hcon
          exact hij (by rw [hcon.1, hcon.2])
        rw [boardAt, boardAt, Int.toNat_ofNat, Int.toNat_ofNat]
        rcases hcases with hne | hne
        · have hne' : a.1.toNat ≠ i := by omega
          rw [getD_set_other _ _ _ _ _ hne']
        · by_cases hi : a.1.toNat = i
          · rw [← hi, getD_set_self _ _ _ _ ha1lt]
            have hne' : a.2.toNat ≠ j := by omega
            rw [getD_set_other _ _ _ _ _ hne']
          · rw [getD_set_other _ _ _ _ _ hi]
    · rw [GameState.result, if_neg hmem] at ht
      cases ht

/-- Witness for C8 at a concrete input: the initial state and the placement
action (0, 0). -/
theorem C8_witness :
    GameState.init.activePlayersIndex < GameState.init.playerLocations.length ∧
    GameState.init.board.length = 3 ∧
    (∀ row ∈ GameState.init.board, row.length = 2) ∧
    ((GameState.init.result (0, 0) = none ↔ (0, 0) ∉ GameState.init.actions) ∧
      (∀ t, GameState.init.result (0, 0) = some t →
        t.activePlayersIndex = (if GameState.init.activePlayersIndex = 0 then 1 else 0) ∧
        t.playerLocations.getD GameState.init.activePlayersIndex none = some (0, 0) ∧
        (∀ j, j ≠ GameState.init.activePlayersIndex →
          t.playerLocations.getD j none = GameState.init.playerLocations.getD j none) ∧
        boardAt t.board 0 0 = 1 ∧
        (∀ i j : ℕ, ((i : ℤ), (j : ℤ)) ≠ ((0 : ℤ), (0 : ℤ)) →
          boardAt t.board i j = boardAt GameState.init.board i j))) :=
  ⟨by decide, by decide, by decide,
    C8_result_checked GameState.init (0, 0) (by decide) (by decide) (by decide)⟩

/-! ## MCTS: `Node` and `CustomPlayer.monte_carlo_tree_search`

The Python `Node` stores a parent back-reference used only by
`backpropagate`; in the functional embedding the tree owns its children and
backpropagation is performed along the recursion spine of one
select/expand → rollout → backpropagate pass (`mctsStep`), negating the
result at each level exactly as `Node.backpropagate` does.
`numberOfVisits` is a Python float that only ever holds naturals
(increments of `1.`), modelled by `ℕ`; `qValue` accumulates rollout results
from `{-1., 0, 1.}`, modelled by `ℤ`.  The wall-clock `while` loop is
modelled by the number of completed iterations. -/

inductive MNode (σ α : Type) where
  | mk (gameState : σ) (action : Option α) (childNodes : List (MNode σ α))
      (qValue : ℤ) (numberOfVisits : ℕ) (openActions : List α)

def MNode.gameState {σ α : Type} : MNode σ α → σ
  | .mk s _ _ _ _ _ => s

def MNode.action {σ α : Type} : MNode σ α → Option α
  | .mk _ a _ _ _ _ => a

def MNode.childNodes {σ α : Type} : MNode σ α → List (MNode σ α)
  | .mk _ _ kids _ _ _ => kids

def MNode.qValue {σ α : Type} : MNode σ α → ℤ
  | .mk _ _ _ q _ _ => q

def MNode.numberOfVisits {σ α : Type} : MNode σ α → ℕ
  | .mk _ _ _ _ v _ => v

def MNode.openActions {σ α : Type} : MNode σ α → List α
  | .mk _ _ _ _ _ o => o

/-- `Node.__init__(gameState, action, parent)`: no children, zero statistics,
`openActions = gameState.actions()`. -/
def mkNode {σ α : Type} (G : AGame σ α) (s : σ) (a : Option α) : MNode σ α :=
  .mk s a [] 0 0 (G.actions s)

/-- The first half of `Node.backpropagate` at one node: increment
`numberOfVisits`, add the (already sign-adjusted) result to `qValue`. -/
def MNode.visited {σ α : Type} : MNode σ α → ℤ → MNode σ α
  | .mk s a kids q v o, r => .mk s a kids (q + r) (v + 1) o

/-- `random.choice(xs)` under the oracle stream: the `k`-th random draw picks
index `rng k % xs.length`.  Callers guarantee `xs ≠ []` (Python raises
`IndexError` otherwise, which the callers model as `none` explicitly). -/
def pick {α : Type} [Inhabited α] (rng : ℕ → ℕ) (k : ℕ) (xs : List α) : α :=
  xs.getD (rng k % xs.length) default

/-- The UCT score computed inside `Node.best_child`:
`child.qValue / child.numberOfVisits
  + 1.7 * sqrt(2 * log(node.numberOfVisits) / child.numberOfVisits)`,
with the float arithmetic modelled over `ℝ`. -/
noncomputable def uctScore {σ α : Type} (N : ℕ) (c : MNode σ α) : ℝ :=
  (c.qValue : ℝ) / (c.numberOfVisits : ℝ) +
    1.7 * Real.sqrt (2 * Real.log (N : ℝ) / (c.numberOfVisits : ℝ))

/-- The loop of `Node.best_child`: `max_uct` starts at `float('-inf')`
(modelled by `⊥ : EReal`) and a child replaces the incumbent only on a
strictly greater score, so the first maximiser wins.  Returns the index of
the selected child (`none` models Python returning `best_child = None` on a
childless node). -/
noncomputable def bestChildAux {σ α : Type} (N : ℕ) :
    List (MNode σ α) → ℕ → Option ℕ → EReal → Option ℕ
  | [], _, best, _ => best
  | c :: rest, i, best, maxUct =>
    let u := uctScore N c
    if maxUct < (u : EReal) then bestChildAux N rest (i + 1) (some i) u
    else bestChildAux N rest (i + 1) best maxUct

noncomputable def bestChildIdx {σ α : Type} (n : MNode σ α) : Option ℕ :=
  bestChildAux n.numberOfVisits n.childNodes 0 none ⊥

/-- `Node.is_a_win`: `game_state.utility(1 - game_state.player()) == inf`. -/
def isAWin {σ α : Type} (G : AGame σ α) (s : σ) : Bool :=
  decide (utility G s (1 - G.player s) = ⊤)

/-- `Node.is_a_loss`: `game_state.utility(1 - game_state.player()) == -inf`. -/
def isALoss {σ α : Type} (G : AGame σ α) (s : σ) : Bool :=
  decide (utility G s (1 - G.player s) = ⊥)

/-- The static `Node.result(game_state)`: `+1` on a win, `-1` on a loss,
`0` otherwise — all read at the state the rollout stopped in. -/
def nodeResult {σ α : Type} (G : AGame σ α) (s : σ) : ℤ :=
  if isAWin G s then 1 else if isALoss G s then -1 else 0

/-- The `while` loop of `Node.rollout`: apply uniformly random legal actions
until `terminal_test()`.  Returns the terminal state reached, the next oracle
position, and the number of moves played; `none` models both a diverging
rollout (fuel) and `random.choice([])` raising `IndexError`. -/
def rolloutLoop {σ α : Type} [Inhabited α] (G : AGame σ α) (rng : ℕ → ℕ) :
    ℕ → σ → ℕ → ℕ → Option (σ × ℕ × ℕ)
  | 0, _, _, _ => none
  | f + 1, s, k, moves =>
    if G.terminal s then some (s, k, moves)
    else
      match G.actions s with
      | [] => none
      | a :: rest =>
        rolloutLoop G rng f (G.result s (pick rng k (a :: rest))) (k + 1) (moves + 1)

/-- `Node.rollout`: run the random simulation from the node's state, then
score the reached terminal state with `Node.result`. -/
def nodeRollout {σ α : Type} [Inhabited α] (G : AGame σ α) (rng : ℕ → ℕ)
    (fuel : ℕ) (s : σ) (k : ℕ) : Option (ℤ × ℕ) :=
  (rolloutLoop G rng fuel s k 0).map fun r => (nodeResult G r.1, r.2.1)

/-- One complete `leaf = traverse(root); result = leaf.rollout();
leaf.backpropagate(result)` pass, fused along the descent path (the parent
pointers of the Python tree).  Returns the updated node, the value that was
added at this node's `qValue` (its negation is what the caller adds, exactly
`Node.backpropagate`'s sign flip), the next oracle position, and — as ghost
instrumentation for the safety claims — one `(node visits, child visit list)`
record per `best_child` invocation made during the traversal. -/
noncomputable def mctsStep {σ α : Type} [Inhabited α] [DecidableEq α]
    (G : AGame σ α) (rng : ℕ → ℕ) :
    ℕ → MNode σ α → ℕ → Option (MNode σ α × ℤ × ℕ × List (ℕ × List ℕ))
  | 0, _, _ => none
  | f + 1, n, k =>
    if G.terminal n.gameState then
      let r := nodeResult G n.gameState
      some (n.visited r, r, k, [])
    else if n.openActions.isEmpty then
      (bestChildIdx n).bind fun i =>
        (n.childNodes.get? i).bind fun c =>
          (mctsStep G rng f c k).map fun r =>
            (.mk n.gameState n.action (n.childNodes.set i r.1)
                (n.qValue + (-r.2.1)) (n.numberOfVisits + 1) n.openActions,
              -r.2.1, r.2.2.1,
              (n.numberOfVisits, n.childNodes.map MNode.numberOfVisits) :: r.2.2.2)
    else
      let move := pick rng k n.openActions
      let child0 := mkNode G (G.result n.gameState move) (some move)
      match nodeRollout G rng f child0.gameState (k + 1) with
      | none => none
      | some (r, k') =>
        some (.mk n.gameState n.action (n.childNodes ++ [child0.visited r])
            (n.qValue + (-r)) (n.numberOfVisits + 1) (n.openActions.erase move),
          -r, k', [])

/-- The time-budget `while` loop of `monte_carlo_tree_search`, modelled by the
number `iters` of completed iterations; accumulates the ghost `best_child`
records of every iteration. -/
noncomputable def mctsRun {σ α : Type} [Inhabited α] [DecidableEq α]
    (G : AGame σ α) (rng : ℕ → ℕ) (fuel : ℕ) :
    ℕ → MNode σ α → ℕ → Option (MNode σ α × ℕ × List (ℕ × List ℕ))
  | 0, n, k => some (n, k, [])
  | i + 1, n, k =>
    (mctsStep G rng fuel n k).bind fun r =>
      (mctsRun G rng fuel i r.1 r.2.2.1).map fun q =>
        (q.1, q.2.1, r.2.2.2 ++ q.2.2)

/-- `CustomPlayer.monte_carlo_tree_search(game_state, search_time)`: build the
root node, iterate while within the (externally timed) budget, then return
`root_node.best_child().action`.  `none` models the `AttributeError` raised by
`best_child.action` when `best_child()` returns `None` (childless root). -/
noncomputable def monteCarloTreeSearch {σ α : Type} [Inhabited α] [DecidableEq α]
    (G : AGame σ α) (rng : ℕ → ℕ) (fuel : ℕ) (iters : ℕ) (s : σ) : Option α :=
  (mctsRun G rng fuel iters (mkNode G s none) 0).bind fun r =>
    (bestChildIdx r.1).bind fun i =>
      (r.1.childNodes.get? i).bind MNode.action

/-- The all-zeros choice oracle: every `random.choice` takes the first
element. -/
def rngZero : ℕ → ℕ := fun _ => 0

lemma rollout_player_parity {σ α : Type} [Inhabited α] (G : AGame σ α)
    (rng : ℕ → ℕ)
    (hpl : ∀ s', G.player s' ≤ 1)
    (htog : ∀ s' a, G.player (G.result s' a) = 1 - G.player s') :
    ∀ (fuel : ℕ) (s : σ) (k m0 : ℕ) (t : σ) (k' m : ℕ),
      rolloutLoop G rng fuel s k m0 = some (t, k', m) →
      m0 ≤ m ∧ G.terminal t = true ∧
        G.player t = if (m - m0) % 2 = 0 then G.player s else 1 - G.player s := by
  intro fuel
  induction fuel with
  | zero => intro s k m0 t k' m h; cases h
  | succ f ih =>
    intro s k m0 t k' m h
    rw [rolloutLoop] at h
    by_cases ht : G.terminal s = true
    · rw [if_pos ht] at h
      obtain ⟨rfl, rfl, rfl⟩ : s = t ∧ k = k' ∧ m0 = m := by
        have := (Option.some.injEq _ _).mp h
        exact ⟨congrArg Prod.fst this, congrArg (Prod.fst ∘ Prod.snd) this,
          congrArg (Prod.snd ∘ Prod.snd) this⟩
      simp [ht]
    · rw [if_neg ht] at h
      cases hs : G.actions s with
      | nil => rw [hs] at h; cases h
      | cons a rest =>
        rw [hs] at h
        obtain ⟨hle, htm, hpt⟩ := ih _ _ _ _ _ _ h
        refine ⟨by omega, htm, ?_⟩
        rw [hpt, htog s (pick rng k (a :: rest))]
        have hp := hpl s
        by_cases h2 : (m - (m0 + 1)) % 2 = 0
        · rw [if_pos h2]
          have h3 : ¬ (m - m0) % 2 = 0 := by omega
          rw [if_neg h3]
        · rw [if_neg h2]
          have h3 : (m - m0) % 2 = 0 := by omega
          rw [if_pos h3]
          omega

/-- C1 counterexample: the claim says the rollout outcome is `+1` exactly
when the player to move at the leaf is the winner of the reached terminal
state.  Take the leaf `1` of `lineG`: it is already terminal, its mover is
player 1, and player 1 is the winner — yet `Node.rollout` returns `-1`,
because `Node.result` scores the *terminal* state's perspective
(`utility(1 - player())`), which for a zero-move rollout is the opposite of
the claimed leaf perspective. -/
theorem C1_counterexample :
    rolloutLoop lineG rngZero 1 (1 : ℕ) 0 0 = some (1, 0, 0) ∧
    lineG.terminal 1 = true ∧
    lineG.winner 1 = lineG.player 1 ∧
    nodeRollout lineG rngZero 1 (1 : ℕ) 0 = some (-1, 0) := by
  refine ⟨rfl, rfl, rfl, rfl⟩

/-- C1 (amended): for every rollout that reaches a terminal state `t` after
`m` moves, the returned outcome is `+1` exactly when the winner of `t` is the
player *not* to move at `t` (i.e. `utility(1 - t.player()) = +inf`), and `-1`
otherwise; the outcome is never `0` under the zero-sum utility.  Since the
mover alternates each rollout move, this coincides with the leaf mover's
perspective exactly when `m` is odd, not independently of `m` as claimed. -/
theorem C1_amended {σ α : Type} [Inhabited α] (G : AGame σ α) (rng : ℕ → ℕ)
    (fuel : ℕ) (s : σ) (k : ℕ) (t : σ) (k' m : ℕ)
    (hpl : ∀ s', G.player s' ≤ 1)
    (htog : ∀ s' a, G.player (G.result s' a) = 1 - G.player s')
    (hrun : rolloutLoop G rng fuel s k 0 = some (t, k', m)) :
    nodeRollout G rng fuel s k = some (nodeResult G t, k') ∧
    (nodeResult G t = 1 ↔ G.winner t = 1 - G.player t) ∧
    (nodeResult G t = -1 ↔ G.winner t ≠ 1 - G.player t) ∧
    G.player t = (if m % 2 = 0 then G.player s else 1 - G.player s) := by
  obtain ⟨-, -, hpt⟩ := rollout_player_parity G rng hpl htog fuel s k 0 t k' m hrun
  refine ⟨?_, ?_, ?_, by simpa using hpt⟩
  · rw [nodeRollout, hrun]
    rfl
  · by_cases hw : G.winner t = 1 - G.player t
    · simp [nodeResult, isAWin, utility, hw]
    · simp [nodeResult, isAWin, isALoss, utility, hw]
  · by_cases hw : G.winner t = 1 - G.player t
    · simp [nodeResult, isAWin, utility, hw]
    · simp [nodeResult, isAWin, isALoss, utility, hw]

/-- Witness for C1 (amended) at a concrete input: a one-move rollout in
`lineG` from state 0. -/
theorem C1_amended_witness :
    (∀ s', lineG.player s' ≤ 1) ∧
    (∀ s' a, lineG.player (lineG.result s' a) = 1 - lineG.player s') ∧
    rolloutLoop lineG rngZero 2 0 0 0 = some (1, 1, 1) ∧
    (nodeRollout lineG rngZero 2 0 0 = some (nodeResult lineG 1, 1) ∧
      (nodeResult lineG 1 = 1 ↔ lineG.winner 1 = 1 - lineG.player 1) ∧
      (nodeResult lineG 1 = -1 ↔ lineG.winner 1 ≠ 1 - lineG.player 1) ∧
      lineG.player 1 = (if 1 % 2 = 0 then lineG.player 0 else 1 - lineG.player 0)) :=
  ⟨fun s' => by show s' % 2 ≤ 1; omega,
   fun s' a => by show (s' + 1) % 2 = 1 - s' % 2; omega,
   rfl,
   C1_amended lineG rngZero 2 0 0 1 1 1
     (fun s' => by show s' % 2 ≤ 1; omega)
     (fun s' a => by show (s' + 1) % 2 = 1 - s' % 2; omega)
     rfl⟩

@[simp] lemma MNode.gameState_mk {σ α : Type} (s : σ) (a : Option α)
    (kids : List (MNode σ α)) (q : ℤ) (v : ℕ) (o : List α) :
    (MNode.mk s a kids q v o).gameState = s := rfl

@[simp] lemma MNode.action_mk {σ α : Type} (s : σ) (a : Option α)
    (kids : List (MNode σ α)) (q : ℤ) (v : ℕ) (o : List α) :
    (MNode.mk s a kids q v o).action = a := rfl

@[simp] lemma MNode.childNodes_mk {σ α : Type} (s : σ) (a : Option α)
    (kids : List (MNode σ α)) (q : ℤ) (v : ℕ) (o : List α) :
    (MNode.mk s a kids q v o).childNodes = kids := rfl

@[simp] lemma MNode.qValue_mk {σ α : Type} (s : σ) (a : Option α)
    (kids : List (MNode σ α)) (q : ℤ) (v : ℕ) (o : List α) :
    (MNode.mk s a kids q v o).qValue = q := rfl

@[simp] lemma MNode.numberOfVisits_mk {σ α : Type} (s : σ) (a : Option α)
    (kids : List (MNode σ α)) (q : ℤ) (v : ℕ) (o : List α) :
    (MNode.mk s a kids q v o).numberOfVisits = v := rfl

@[simp] lemma MNode.openActions_mk {σ α : Type} (s : σ) (a : Option α)
    (kids : List (MNode σ α)) (q : ℤ) (v : ℕ) (o : List α) :
    (MNode.mk s a kids q v o).openActions = o := rfl

@[simp] lemma MNode.visited_mk {σ α : Type} (s : σ) (a : Option α)
    (kids : List (MNode σ α)) (q : ℤ) (v : ℕ) (o : List α) (r : ℤ) :
    (MNode.mk s a kids q v o).visited r = .mk s a kids (q + r) (v + 1) o := rfl

/-! Decidable form of the spec's visit-count invariant (`visitLEb`): every
child's `numberOfVisits` is at most its parent's, recursively through the
tree. -/

mutual

def visitLEb {σ α : Type} : MNode σ α → Bool
  | .mk _ _ kids _ v _ => visitLEKids v kids

def visitLEKids {σ α : Type} : ℕ → List (MNode σ α) → Bool
  | _, [] => true
  | v, c :: cs => (decide (c.numberOfVisits ≤ v) && visitLEb c) && visitLEKids v cs

end

/-! Decidable form of "every non-root node has been visited at least once"
(`kidsVisitedb`): children are only ever created by `expand`, which
immediately backpropagates through them. -/

mutual

def kidsVisitedb {σ α : Type} : MNode σ α → Bool
  | .mk _ _ kids _ _ _ => kidsVisitedKids kids

def kidsVisitedKids {σ α : Type} : List (MNode σ α) → Bool
  | [] => true
  | c :: cs => (decide (1 ≤ c.numberOfVisits) && kidsVisitedb c) && kidsVisitedKids cs

end

/-- A ghost record of one `best_child` invocation during tree traversal is
safe when the node and every one of its children have a strictly positive
visit count, so the divisions by `child.numberOfVisits` and the logarithm of
`node.numberOfVisits` in the UCT formula are never taken at zero. -/
def goodEntry (e : ℕ × List ℕ) : Prop := 1 ≤ e.1 ∧ ∀ w ∈ e.2, 1 ≤ w

lemma visitLEKids_iff {σ α : Type} :
    ∀ (kids : List (MNode σ α)) (v : ℕ),
      visitLEKids v kids = true ↔
        ∀ c ∈ kids, c.numberOfVisits ≤ v ∧ visitLEb c = true := by
  intro kids
  induction kids with
  | nil => intro v; simp [visitLEKids]
  | cons c cs ih =>
    intro v
    rw [visitLEKids]
    simp only [Bool.and_eq_true, decide_eq_true_eq, List.mem_cons]
    constructor
    · rintro ⟨⟨h1, h2⟩, h3⟩ x hx
      rcases hx with rfl | hx
      · exact ⟨h1, h2⟩
      · exact (ih v).mp h3 x hx
    · intro h
      exact ⟨h c (Or.inl rfl), (ih v).mpr fun x hx => h x (Or.inr hx)⟩

lemma kidsVisitedKids_iff {σ α : Type} :
    ∀ (kids : List (MNode σ α)),
      kidsVisitedKids kids = true ↔
        ∀ c ∈ kids, 1 ≤ c.numberOfVisits ∧ kidsVisitedb c = true := by
  intro kids
  induction kids with
  | nil => simp [kidsVisitedKids]
  | cons c cs ih =>
    rw [kidsVisitedKids]
    simp only [Bool.and_eq_true, decide_eq_true_eq, List.mem_cons]
    constructor
    · rintro ⟨⟨h1, h2⟩, h3⟩ x hx
      rcases hx with rfl | hx
      · exact ⟨h1, h2⟩
      · exact ih.mp h3 x hx
    · intro h
      exact ⟨h c (Or.inl rfl), ih.mpr fun x hx => h x (Or.inr hx)⟩

lemma visitLEKids_mono {σ α : Type} (kids : List (MNode σ α)) (v w : ℕ)
    (hvw : v ≤ w) (h : visitLEKids v kids = true) : visitLEKids w kids = true := by
  rw [visitLEKids_iff] at h ⊢
  exact fun c hc => ⟨(h c hc).1.trans hvw, (h c hc).2⟩

lemma pick_mem {α : Type} [Inhabited α] (rng : ℕ → ℕ) (k : ℕ) (xs : List α)
    (h : xs ≠ []) : pick rng k xs ∈ xs := by
  have hlen : 0 < xs.length := List.length_pos.mpr h
  have hlt : rng k % xs.length < xs.length := Nat.mod_lt _ hlen
  rw [pick, List.getD_eq_getElem xs default hlt]
  exact List.getElem_mem hlt

lemma mctsStep_spec {σ α : Type} [Inhabited α] [DecidableEq α]
    (G : AGame σ α) (rng : ℕ → ℕ) :
    ∀ (fuel : ℕ) (n : MNode σ α) (k : ℕ)
      (res : MNode σ α × ℤ × ℕ × List (ℕ × List ℕ)),
      mctsStep G rng fuel n k = some res →
      visitLEb n = true →
      kidsVisitedb n = true →
      (G.terminal n.gameState = true ∨ n.openActions ≠ [] ∨ 1 ≤ n.numberOfVisits) →
      res.1.gameState = n.gameState ∧
      res.1.action = n.action ∧
      res.1.numberOfVisits = n.numberOfVisits + 1 ∧
      n.childNodes.length ≤ res.1.childNodes.length ∧
      (G.terminal n.gameState = false → n.openActions ≠ [] →
        n.childNodes.length + 1 ≤ res.1.childNodes.length) ∧
      visitLEb res.1 = true ∧
      kidsVisitedb res.1 = true ∧
      (∀ e ∈ res.2.2.2, goodEntry e) ∧
      (∀ c' ∈ res.1.childNodes,
        (∃ c ∈ n.childNodes, c'.action = c.action) ∨
          ∃ a ∈ n.openActions, c'.action = some a) ∧
      res.1.openActions ⊆ n.openActions := by
  intro fuel
  induction fuel with
  | zero => intro n k res h _ _ _; cases h
  | succ f ih =>
    intro n k res h hvle hkv hdisj
    cases n with
    | mk s a kids q vis o =>
      rw [mctsStep] at h
      simp only [MNode.gameState_mk, MNode.openActions_mk, MNode.childNodes_mk,
        MNode.numberOfVisits_mk, MNode.qValue_mk, MNode.action_mk] at h hdisj ⊢
      by_cases ht : G.terminal s = true
      · rw [if_pos ht] at h
        simp only [MNode.visited_mk] at h
        obtain rfl : (MNode.mk s a kids (q + nodeResult G s) (vis + 1) o,
            nodeResult G s, k, ([] : List (ℕ × List ℕ))) = res :=
          (Option.some.injEq _ _).mp h
        refine ⟨rfl, rfl, rfl, le_rfl, ?_, ?_, ?_, ?_, ?_, fun x hx => hx⟩
        · intro h1 _
          rw [h1] at ht
          cases ht
        · exact visitLEKids_mono kids vis (vis + 1) (Nat.le_succ vis) hvle
        · exact hkv
        · intro e he
          cases he
        · intro c' hc'
          exact Or.inl ⟨c', hc', rfl⟩
      · rw [if_neg ht] at h
        by_cases ho : (o : List α).isEmpty
        · rw [if_pos ho] at h
          have ho' : o = [] := List.isEmpty_iff.mp ho
          rcases Option.bind_eq_some.mp h with ⟨i, hbci, h2⟩
          rcases Option.bind_eq_some.mp h2 with ⟨c, hget, h3⟩
          rcases Option.map_eq_some'.mp h3 with ⟨r, hstep, hres⟩
          have hcmem : c ∈ kids := List.get?_mem hget
          obtain ⟨hc1, hckv⟩ := (kidsVisitedKids_iff kids).mp hkv c hcmem
          obtain ⟨hcle, hcvle⟩ := (visitLEKids_iff kids vis).mp hvle c hcmem
          obtain ⟨ih1, ih2, ih3, ih4, ih5, ih6, ih7, ih8, ih9, ih10⟩ :=
            ih c k r hstep hcvle hckv (Or.inr (Or.inr hc1))
          subst hres
          simp only [MNode.childNodes_mk, MNode.numberOfVisits_mk,
            MNode.gameState_mk, MNode.action_mk, MNode.openActions_mk]
          refine ⟨by trivial, by trivial, by trivial,
            le_of_eq (List.length_set kids i r.1).symm, ?_,
            ?_, ?_, ?_, ?_, fun x hx => hx⟩
          · intro _ hcon
            exact absurd ho' hcon
          · show visitLEKids (vis + 1) (kids.set i r.1) = true
            rw [visitLEKids_iff]
            intro x hx
            rcases List.mem_or_eq_of_mem_set hx with hx | rfl
            · obtain ⟨h1, h2⟩ := (visitLEKids_iff kids vis).mp hvle x hx
              exact ⟨h1.trans (Nat.le_succ vis), h2⟩
            · rw [ih3]
              exact ⟨Nat.succ_le_succ hcle, ih6⟩
          · show kidsVisitedKids (kids.set i r.1) = true
            rw [kidsVisitedKids_iff]
            intro x hx
            rcases List.mem_or_eq_of_mem_set hx with hx | rfl
            · exact (kidsVisitedKids_iff kids).mp hkv x hx
            · rw [ih3]
              exact ⟨Nat.le_succ_of_le hc1, ih7⟩
          · intro e he
            rcases List.mem_cons.mp he with rfl | he
            · constructor
              · rcases hdisj with hd | hd | hd
                · exact absurd hd ht
                · exact absurd ho' hd
                · exact hd
              · intro w hw
                obtain ⟨c0, hc0, rfl⟩ := List.mem_map.mp hw
                exact ((kidsVisitedKids_iff kids).mp hkv c0 hc0).1
            · exact ih8 e he
          · intro c' hc'
            rcases List.mem_or_eq_of_mem_set hc' with hc' | rfl
            · exact Or.inl ⟨c', hc', rfl⟩
            · exact Or.inl ⟨c, hcmem, ih2⟩
        · rw [if_neg ho] at h
          have ho' : o ≠ [] := by
            intro hcon
            rw [hcon] at ho
            exact ho rfl
          cases hnr : nodeRollout G rng f
              (mkNode G (G.result s (pick rng k o)) (some (pick rng k o))).gameState
              (k + 1) with
          | none => rw [hnr] at h; cases h
          | some rk =>
            rw [hnr] at h
            obtain rfl : (MNode.mk s a
                (kids ++ [(mkNode G (G.result s (pick rng k o))
                  (some (pick rng k o))).visited rk.1])
                (q + -rk.1) (vis + 1) (o.erase (pick rng k o)),
                -rk.1, rk.2, ([] : List (ℕ × List ℕ))) = res :=
              (Option.some.injEq _ _).mp h
            simp only [MNode.childNodes_mk, MNode.numberOfVisits_mk,
              MNode.gameState_mk, MNode.action_mk, MNode.openActions_mk,
              mkNode, MNode.visited_mk]
            refine ⟨by trivial, by trivial, by trivial, ?_, ?_, ?_, ?_, ?_, ?_, ?_⟩
            · rw [List.length_append]
              exact Nat.le_succ _
            · intro _ _
              rw [List.length_append]
              rfl
            · show visitLEKids (vis + 1) (kids ++
                [MNode.mk (G.result s (pick rng k o)) (some (pick rng k o)) []
                  (0 + rk.1) (0 + 1) (G.actions (G.result s (pick rng k o)))]) = true
              rw [visitLEKids_iff]
              intro x hx
              rcases List.mem_append.mp hx with hx | hx
              · obtain ⟨h1, h2⟩ := (visitLEKids_iff kids vis).mp hvle x hx
                exact ⟨h1.trans (Nat.le_succ vis), h2⟩
              · rcases List.mem_singleton.mp hx with rfl
                exact ⟨Nat.succ_le_succ (Nat.zero_le vis), rfl⟩
            · show kidsVisitedKids (kids ++
                [MNode.mk (G.result s (pick rng k o)) (some (pick rng k o)) []
                  (0 + rk.1) (0 + 1) (G.actions (G.result s (pick rng k o)))]) = true
              rw [kidsVisitedKids_iff]
              intro x hx
              rcases List.mem_append.mp hx with hx | hx
              · exact (kidsVisitedKids_iff kids).mp hkv x hx
              · rcases List.mem_singleton.mp hx with rfl
                exact ⟨le_rfl, rfl⟩
            · intro e he
              cases he
            · intro c' hc'
              rcases List.mem_append.mp hc' with hc' | hc'
              · exact Or.inl ⟨c', hc', rfl⟩
              · rcases List.mem_singleton.mp hc' with rfl
                exact Or.inr ⟨pick rng k o, pick_mem rng k o ho', rfl⟩
            · intro x hx
              exact List.mem_of_mem_erase hx

lemma mctsRun_spec {σ α : Type} [Inhabited α] [DecidableEq α]
    (G : AGame σ α) (rng : ℕ → ℕ) (fuel : ℕ) :
    ∀ (iters : ℕ) (n : MNode σ α) (k : ℕ)
      (res : MNode σ α × ℕ × List (ℕ × List ℕ)),
      mctsRun G rng fuel iters n k = some res →
      visitLEb n = true →
      kidsVisitedb n = true →
      (G.terminal n.gameState = true ∨ n.openActions ≠ [] ∨ 1 ≤ n.numberOfVisits) →
      res.1.gameState = n.gameState ∧
      res.1.numberOfVisits = n.numberOfVisits + iters ∧
      visitLEb res.1 = true ∧
      kidsVisitedb res.1 = true ∧
      (∀ e ∈ res.2.2, goodEntry e) ∧
      n.childNodes.length ≤ res.1.childNodes.length ∧
      (1 ≤ iters → G.terminal n.gameState = false → n.openActions ≠ [] →
        1 ≤ res.1.childNodes.length) ∧
      (∀ c' ∈ res.1.childNodes,
        (∃ c ∈ n.childNodes, c'.action = c.action) ∨
          ∃ a ∈ n.openActions, c'.action = some a) ∧
      res.1.openActions ⊆ n.openActions := by
  intro iters
  induction iters with
  | zero =>
    intro n k res h hvle hkv hdisj
    obtain rfl : (n, k, ([] : List (ℕ × List ℕ))) = res := (Option.some.injEq _ _).mp h
    refine ⟨rfl, (Nat.add_zero _).symm, hvle, hkv, ?_, le_rfl, ?_, ?_, fun x hx => hx⟩
    · intro e he; cases he
    · intro hcon; cases hcon
    · intro c' hc'; exact Or.inl ⟨c', hc', rfl⟩
  | succ i ih =>
    intro n k res h hvle hkv hdisj
    rw [mctsRun] at h
    rcases Option.bind_eq_some.mp h with ⟨r, hstep, h2⟩
    rcases Option.map_eq_some'.mp h2 with ⟨qq, hrunr, hres⟩
    obtain ⟨st1, st2, st3, st4, st5, st6, st7, st8, st9, st10⟩ :=
      mctsStep_spec G rng fuel n k r hstep hvle hkv hdisj
    obtain ⟨rn1, rn2, rn3, rn4, rn5, rn6, rn7, rn8, rn9⟩ :=
      ih r.1 r.2.2.1 qq hrunr st6 st7 (Or.inr (Or.inr (by rw [st3]; omega)))
    subst hres
    refine ⟨by rw [rn1, st1], by rw [rn2, st3]; omega, rn3, rn4, ?_, ?_, ?_, ?_, ?_⟩
    · intro e he
      rcases List.mem_append.mp he with he | he
      · exact st8 e he
      · exact rn5 e he
    · exact st4.trans rn6
    · intro _ hterm hopen
      exact le_trans (le_trans (Nat.le_add_left 1 n.childNodes.length)
        (st5 hterm hopen)) rn6
    · intro c'' hc''
      rcases rn8 c'' hc'' with ⟨c', hc', heq⟩ | ⟨a, ha, heq⟩
      · rcases st9 c' hc' with ⟨c, hc, heq2⟩ | ⟨a, ha, heq2⟩
        · exact Or.inl ⟨c, hc, heq.trans heq2⟩
        · exact Or.inr ⟨a, ha, heq.trans heq2⟩
      · exact Or.inr ⟨a, st10 ha, heq⟩
    · exact fun x hx => st10 (rn9 hx)

lemma mctsStep_none_of_stuck {σ α : Type} [Inhabited α] [DecidableEq α]
    (G : AGame σ α) (rng : ℕ → ℕ) (fuel : ℕ) (s : σ) (k : ℕ)
    (ht : G.terminal s = false) (ha : G.actions s = []) :
    mctsStep G rng fuel (mkNode G s none) k = none := by
  cases fuel with
  | zero => rfl
  | succ f =>
    rw [mctsStep]
    simp only [mkNode, MNode.gameState_mk, MNode.openActions_mk, MNode.childNodes_mk,
      MNode.numberOfVisits_mk, ha, ht]
    rfl

/-- C5: after every completed select/expand → rollout → backpropagate
iteration of `monte_carlo_tree_search`, every non-root node's
`numberOfVisits` is at most its parent's (`visitLEb`), and the root's
`numberOfVisits` equals the number of completed iterations.  Backpropagation
increments exactly the nodes on the path from the expanded/terminal leaf to
the root, once each, and every freshly expanded child starts with one visit. -/
theorem C5_visit_invariant {σ α : Type} [Inhabited α] [DecidableEq α]
    (G : AGame σ α) (rng : ℕ → ℕ) (fuel : ℕ) (iters : ℕ) (s : σ)
    (res : MNode σ α × ℕ × List (ℕ × List ℕ))
    (hrun : mctsRun G rng fuel iters (mkNode G s none) 0 = some res) :
    visitLEb res.1 = true ∧ res.1.numberOfVisits = iters := by
  by_cases hd : G.terminal s = true ∨ G.actions s ≠ []
  · have hdisj : G.terminal (mkNode G s none).gameState = true ∨
        (mkNode G s none).openActions ≠ [] ∨ 1 ≤ (mkNode G s none).numberOfVisits := by
      rcases hd with hd | hd
      · exact Or.inl hd
      · exact Or.inr (Or.inl hd)
    obtain ⟨-, h2, h3, -, -, -, -, -, -⟩ :=
      mctsRun_spec G rng fuel iters (mkNode G s none) 0 res hrun rfl rfl hdisj
    refine ⟨h3, by rw [h2]; show 0 + iters = iters; omega⟩
  · push_neg at hd
    obtain ⟨ht, ha⟩ := hd
    have ht' : G.terminal s = false := by
      cases hterm : G.terminal s with
      | false => rfl
      | true => exact absurd hterm ht
    cases iters with
    | zero =>
      obtain rfl : (mkNode G s none, 0, ([] : List (ℕ × List ℕ))) = res :=
        (Option.some.injEq _ _).mp hrun
      exact ⟨rfl, rfl⟩
    | succ i =>
      rw [mctsRun, mctsStep_none_of_stuck G rng fuel s 0 ht' ha] at hrun
      cases hrun

/-- Witness tree: the final root of a one-iteration MCTS run on `lineG` from
state 0 (the single action 5 was expanded; its rollout lost). -/
def lineRoot1 : MNode ℕ ℕ :=
  .mk 0 none [.mk 1 (some 5) [] (-1) 1 []] 1 1 []

/-- Witness for C5 at a concrete input: one iteration on `lineG`. -/
theorem C5_witness :
    mctsRun lineG rngZero 5 1 (mkNode lineG 0 none) 0 = some (lineRoot1, 1, []) ∧
      (visitLEb lineRoot1 = true ∧ lineRoot1.numberOfVisits = 1) :=
  ⟨rfl, C5_visit_invariant lineG rngZero 5 1 0 (lineRoot1, 1, []) rfl⟩

lemma bca_some {σ α : Type} (N : ℕ) :
    ∀ (cs : List (MNode σ α)) (i0 j0 : ℕ) (u0 : ℝ),
      ∃ res, bestChildAux N cs i0 (some j0) ((u0 : EReal)) = some res ∧
        ((res = j0 ∧ ∀ c ∈ cs, uctScore N c ≤ u0) ∨
          (∃ off, off < cs.length ∧ res = i0 + off ∧ ∃ c, cs.get? off = some c ∧
            u0 ≤ uctScore N c ∧ ∀ c' ∈ cs, uctScore N c' ≤ uctScore N c)) := by
  intro cs
  induction cs with
  | nil =>
    intro i0 j0 u0
    exact ⟨j0, rfl, Or.inl ⟨rfl, fun c hc => absurd hc (List.not_mem_nil c)⟩⟩
  | cons c rest ih =>
    intro i0 j0 u0
    rw [bestChildAux]
    by_cases hcmp : u0 < uctScore N c
    · rw [if_pos (EReal.coe_lt_coe_iff.mpr hcmp)]
      obtain ⟨res, heq, hcase⟩ := ih (i0 + 1) i0 (uctScore N c)
      refine ⟨res, heq, Or.inr ?_⟩
      rcases hcase with ⟨rfl, hall⟩ | ⟨off, hofflt, rfl, c2, hget2, hu, hall⟩
      · refine ⟨0, by simp, by omega, c, rfl, le_of_lt hcmp, ?_⟩
        intro c' hc'
        rcases List.mem_cons.mp hc' with rfl | hc'
        · exact le_rfl
        · exact hall c' hc'
      · refine ⟨off + 1, by simp [Nat.succ_lt_succ hofflt], by omega, c2, hget2, le_of_lt (lt_of_lt_of_le hcmp hu), ?_⟩
        intro c' hc'
        rcases List.mem_cons.mp hc' with rfl | hc'
        · exact hu
        · exact hall c' hc'
    · rw [if_neg (fun hc => hcmp (EReal.coe_lt_coe_iff.mp hc))]
      have hle : uctScore N c ≤ u0 := not_lt.mp hcmp
      obtain ⟨res, heq, hcase⟩ := ih (i0 + 1) j0 u0
      refine ⟨res, heq, ?_⟩
      rcases hcase with ⟨req, hall⟩ | ⟨off, hofflt, req, c2, hget2, hu, hall⟩
      · refine Or.inl ⟨req, ?_⟩
        intro c' hc'
        rcases List.mem_cons.mp hc' with rfl | hc'
        · exact hle
        · exact hall c' hc'
      · refine Or.inr ⟨off + 1, by simp [Nat.succ_lt_succ hofflt], by omega, c2, hget2, hu, ?_⟩
        intro c' hc'
        rcases List.mem_cons.mp hc' with rfl | hc'
        · exact hle.trans hu
        · exact hall c' hc'

lemma bestChildIdx_argmax {σ α : Type} (n : MNode σ α) (c : MNode σ α)
    (rest : List (MNode σ α)) (hk : n.childNodes = c :: rest) :
    ∃ j cb, bestChildIdx n = some j ∧ (c :: rest).get? j = some cb ∧
      ∀ x ∈ c :: rest, uctScore n.numberOfVisits x ≤ uctScore n.numberOfVisits cb := by
  rw [bestChildIdx, hk, bestChildAux, if_pos (EReal.bot_lt_coe _)]
  obtain ⟨res, heq, hcase⟩ := bca_some n.numberOfVisits rest 1 0 (uctScore n.numberOfVisits c)
  rw [heq]
  rcases hcase with ⟨rfl, hall⟩ | ⟨off, hofflt, rfl, c2, hget2, hu, hall⟩
  · refine ⟨0, c, rfl, rfl, ?_⟩
    intro x hx
    rcases List.mem_cons.mp hx with rfl | hx
    · exact le_rfl
    · exact hall x hx
  · refine ⟨1 + off, c2, rfl, ?_, ?_⟩
    · rw [Nat.add_comm 1 off]
      exact hget2
    · intro x hx
      rcases List.mem_cons.mp hx with rfl | hx
      · exact hu
      · exact hall x hx

/-- C7 counterexample: the claim says a run whose timed loop executes zero
iterations still expands a child of the root and returns a legal action.  On
the non-terminal state 0 of `lineG` with one legal action, zero completed
iterations leave the root childless, `best_child()` returns `None`, and
`best_child.action` fails — modelled by `monte_carlo_tree_search` returning
`none`. -/
theorem C7_counterexample :
    lineG.terminal 0 = false ∧ lineG.actions 0 ≠ [] ∧
      monteCarloTreeSearch lineG rngZero 5 0 0 = none :=
  ⟨rfl, by decide, rfl⟩

/-- C7 (amended): with zero completed iterations `monte_carlo_tree_search`
fails on a childless root (`None.action`), but as soon as at least one
iteration completes on a non-terminal root with a legal action, the function
returns the action of one of the root's children, which is a legal action of
the root state. -/
theorem C7_amended {σ α : Type} [Inhabited α] [DecidableEq α]
    (G : AGame σ α) (rng : ℕ → ℕ) (fuel : ℕ) (iters : ℕ) (s : σ)
    (res : MNode σ α × ℕ × List (ℕ × List ℕ))
    (hterm : G.terminal s = false) (hact : G.actions s ≠ []) (hit : 1 ≤ iters)
    (hrun : mctsRun G rng fuel iters (mkNode G s none) 0 = some res) :
    ∃ a, monteCarloTreeSearch G rng fuel iters s = some a ∧ a ∈ G.actions s := by
  obtain ⟨-, -, -, -, -, -, h7, h8, -⟩ :=
    mctsRun_spec G rng fuel iters (mkNode G s none) 0 res hrun rfl rfl
      (Or.inr (Or.inl hact))
  have hlen : 1 ≤ res.1.childNodes.length := h7 hit hterm hact
  cases hk : res.1.childNodes with
  | nil => rw [hk] at hlen; cases hlen
  | cons c rest =>
    obtain ⟨j, cb, hbc, hget, -⟩ := bestChildIdx_argmax res.1 c rest hk
    have hcbmem : cb ∈ res.1.childNodes := by
      rw [hk]
      exact List.get?_mem hget
    rcases h8 cb hcbmem with ⟨c0, hc0, -⟩ | ⟨a, ha, heq⟩
    · exact absurd hc0 (List.not_mem_nil c0)
    · refine ⟨a, ?_, ha⟩
      rw [monteCarloTreeSearch, hrun, Option.some_bind, hbc, Option.some_bind, ← hk] at *
      rw [hget, Option.some_bind, heq]

/-- Witness for C7 (amended) at a concrete input: one iteration on `lineG`
from state 0 returns the legal action 5. -/
theorem C7_amended_witness :
    lineG.terminal 0 = false ∧ lineG.actions 0 ≠ [] ∧ 1 ≤ 1 ∧
      mctsRun lineG rngZero 5 1 (mkNode lineG 0 none) 0 = some (lineRoot1, 1, []) ∧
      ∃ a, monteCarloTreeSearch lineG rngZero 5 1 0 = some a ∧ a ∈ lineG.actions 0 :=
  ⟨rfl, by decide, le_rfl, rfl,
    C7_amended lineG rngZero 5 1 0 (lineRoot1, 1, []) rfl (by decide) le_rfl rfl⟩

/-- C6: whenever `best_child` is invoked during tree traversal, the node has
`numberOfVisits >= 1` and every one of its children has
`numberOfVisits >= 1`, so the UCT formula never divides by zero and never
takes `log 0`: expansion consumes all untried actions (each expanded child is
immediately visited by backpropagation) before UCT selection is ever used,
and a fully expanded non-terminal node has been visited before.  The ghost
trace of `mctsRun` records `(node visits, child visit list)` at every
`best_child` call made by `traverse`.  The hypothesis is the game property
"no legal actions implies terminal" (spec §8), which the isolation GameState
satisfies. -/
theorem C6_uct_preconditions {σ α : Type} [Inhabited α] [DecidableEq α]
    (G : AGame σ α) (rng : ℕ → ℕ) (fuel : ℕ) (iters : ℕ) (s : σ)
    (res : MNode σ α × ℕ × List (ℕ × List ℕ))
    (hgame : ∀ s', G.actions s' = [] → G.terminal s' = true)
    (hrun : mctsRun G rng fuel iters (mkNode G s none) 0 = some res) :
    ∀ e ∈ res.2.2, goodEntry e := by
  have hdisj : G.terminal (mkNode G s none).gameState = true ∨
      (mkNode G s none).openActions ≠ [] ∨ 1 ≤ (mkNode G s none).numberOfVisits := by
    by_cases ha : G.actions s = []
    · exact Or.inl (hgame s ha)
    · exact Or.inr (Or.inl ha)
  obtain ⟨-, -, -, -, h5, -, -, -, -⟩ :=
    mctsRun_spec G rng fuel iters (mkNode G s none) 0 res hrun rfl rfl hdisj
  exact h5

/-- A four-state game driving the MCTS counterexample run: from state 0
(player 0) action 10 reaches the terminal loss 1 and action 11 reaches state
2 (player 1), whose only action 12 reaches the terminal state 3 (player 0).
Player 1 always wins, so rollouts stopping at state 1 score `-1` and rollouts
stopping at state 3 score `+1`. -/
def mctsG : AGame ℕ ℕ where
  actions := fun s => if s = 0 then [10, 11] else if s = 2 then [12] else []
  result := fun s a => if s = 0 then (if a = 10 then 1 else 2) else 3
  player := fun s => if s = 0 ∨ s = 3 then 0 else 1
  plyCount := fun _ => 5
  terminal := fun s => decide (s ≠ 0 ∧ s ≠ 2)
  winner := fun _ => 1

lemma mctsG_no_actions_terminal :
    ∀ s', mctsG.actions s' = [] → mctsG.terminal s' = true := by
  intro s' h
  show decide (s' ≠ 0 ∧ s' ≠ 2) = true
  by_cases h0 : s' = 0
  · subst h0
    exact absurd h (by decide)
  · by_cases h2 : s' = 2
    · subst h2
      exact absurd h (by decide)
    · simp [h0, h2]

/-! The four-iteration run of `monte_carlo_tree_search` on `mctsG` with the
all-zeros oracle, written out node by node. -/

def mcA : MNode ℕ ℕ := .mk 1 (some 10) [] (-1) 1 []
def mcB1 : MNode ℕ ℕ := .mk 2 (some 11) [] 1 1 [12]
def mcC1 : MNode ℕ ℕ := .mk 3 (some 12) [] 1 1 []
def mcB2 : MNode ℕ ℕ := .mk 2 (some 11) [mcC1] 0 2 []
def mcC2 : MNode ℕ ℕ := .mk 3 (some 12) [] 2 2 []
def mcB3 : MNode ℕ ℕ := .mk 2 (some 11) [mcC2] (-1) 3 []
def mcT1 : MNode ℕ ℕ := .mk 0 none [mcA] 1 1 [11]
def mcT2 : MNode ℕ ℕ := .mk 0 none [mcA, mcB1] 0 2 []
def mcT3 : MNode ℕ ℕ := .mk 0 none [mcA, mcB2] 1 3 []
def mcT4 : MNode ℕ ℕ := .mk 0 none [mcA, mcB3] 2 4 []

lemma uct_A2 : uctScore 2 mcA = -1 + 1.7 * Real.sqrt (2 * Real.log 2) := by
  simp only [uctScore, mcA, MNode.qValue_mk, MNode.numberOfVisits_mk]
  norm_num

lemma uct_B12 : uctScore 2 mcB1 = 1 + 1.7 * Real.sqrt (2 * Real.log 2) := by
  simp only [uctScore, mcB1, MNode.qValue_mk, MNode.numberOfVisits_mk]
  norm_num

lemma uct_A3 : uctScore 3 mcA = -1 + 1.7 * Real.sqrt (2 * Real.log 3) := by
  simp only [uctScore, mcA, MNode.qValue_mk, MNode.numberOfVisits_mk]
  norm_num

lemma uct_B23 : uctScore 3 mcB2 = 1.7 * Real.sqrt (2 * Real.log 3 / 2) := by
  simp only [uctScore, mcB2, MNode.qValue_mk, MNode.numberOfVisits_mk]
  norm_num

lemma uct_A4 : uctScore 4 mcA = -1 + 1.7 * Real.sqrt (2 * Real.log 4) := by
  simp only [uctScore, mcA, MNode.qValue_mk, MNode.numberOfVisits_mk]
  norm_num

lemma uct_B34 : uctScore 4 mcB3 = -1/3 + 1.7 * Real.sqrt (2 * Real.log 4 / 3) := by
  simp only [uctScore, mcB3, MNode.qValue_mk, MNode.numberOfVisits_mk]
  norm_num

lemma sqrt_two_gt : (24/17 : ℝ) < Real.sqrt 2 := by
  rw [show (24/17:ℝ) = Real.sqrt ((24/17)^2) by rw [Real.sqrt_sq (by norm_num)]]
  exact Real.sqrt_lt_sqrt (by positivity) (by norm_num)

lemma uct_lt_2 : uctScore 2 mcA < uctScore 2 mcB1 := by
  rw [uct_A2, uct_B12]
  linarith

lemma uct_lt_3 : uctScore 3 mcA < uctScore 3 mcB2 := by
  rw [uct_A3, uct_B23]
  have hL0 : (0:ℝ) ≤ Real.log 3 := Real.log_nonneg (by norm_num)
  have hLle : Real.log 3 ≤ 2 := by
    have := Real.log_le_sub_one_of_pos (x := 3) (by norm_num)
    linarith
  have hdiv : 2 * Real.log 3 / 2 = Real.log 3 := by ring
  rw [hdiv]
  have hmul : Real.sqrt (2 * Real.log 3) = Real.sqrt 2 * Real.sqrt (Real.log 3) :=
    Real.sqrt_mul (by norm_num) _
  rw [hmul]
  have hs1 : Real.sqrt (Real.log 3) ≤ Real.sqrt 2 := Real.sqrt_le_sqrt hLle
  have hs2 := sqrt_two_gt
  have h2 : Real.sqrt 2 * Real.sqrt 2 = 2 := Real.mul_self_sqrt (by norm_num)
  have h0L : (0:ℝ) ≤ Real.sqrt (Real.log 3) := Real.sqrt_nonneg _
  have h02 : (0:ℝ) ≤ Real.sqrt 2 := Real.sqrt_nonneg _
  nlinarith [mul_le_mul_of_nonneg_right hs1 (by nlinarith : (0:ℝ) ≤ Real.sqrt 2 - 1)]

lemma uct_le_4 : uctScore 4 mcB3 ≤ uctScore 4 mcA := by
  rw [uct_A4, uct_B34]
  have hM : Real.log 4 = 2 * Real.log 2 := by
    rw [show (4:ℝ) = 2^2 by norm_num, Real.log_pow]
    push_cast
    ring
  have hlog2 : (0.6931471803 : ℝ) < Real.log 2 := Real.log_two_gt_d9
  have hM0 : (0:ℝ) ≤ 2 * Real.log 4 / 3 := by positivity
  have hX : (1.664 : ℝ) ≤ Real.sqrt (2 * Real.log 4) := by
    rw [show (1.664:ℝ) = Real.sqrt (1.664^2) by rw [Real.sqrt_sq (by norm_num)]]
    apply Real.sqrt_le_sqrt
    nlinarith
  have hXY : Real.sqrt (2 * Real.log 4 / 3) * Real.sqrt 3 = Real.sqrt (2 * Real.log 4) := by
    rw [← Real.sqrt_mul hM0 3]
    norm_num
  have hs3l : (1.732 : ℝ) ≤ Real.sqrt 3 := by
    rw [show (1.732:ℝ) = Real.sqrt (1.732^2) by rw [Real.sqrt_sq (by norm_num)]]
    apply Real.sqrt_le_sqrt
    norm_num
  have hs3u : Real.sqrt 3 ≤ 1.7321 := by
    rw [show (1.7321:ℝ) = Real.sqrt (1.7321^2) by rw [Real.sqrt_sq (by norm_num)]]
    apply Real.sqrt_le_sqrt
    norm_num
  have hY0 : (0:ℝ) ≤ Real.sqrt (2 * Real.log 4 / 3) := Real.sqrt_nonneg _
  nlinarith [mul_le_mul_of_nonneg_left hs3u
    (by linarith [hY0] : (0:ℝ) ≤ 1.7 * Real.sqrt (2 * Real.log 4 / 3))]

lemma bc_T2 : bestChildIdx mcT2 = some 1 := by
  show bestChildAux 2 [mcA, mcB1] 0 none ⊥ = some 1
  rw [bestChildAux, if_pos (EReal.bot_lt_coe _), bestChildAux,
    if_pos (EReal.coe_lt_coe_iff.mpr uct_lt_2), bestChildAux]

lemma bc_T3 : bestChildIdx mcT3 = some 1 := by
  show bestChildAux 3 [mcA, mcB2] 0 none ⊥ = some 1
  rw [bestChildAux, if_pos (EReal.bot_lt_coe _), bestChildAux,
    if_pos (EReal.coe_lt_coe_iff.mpr uct_lt_3), bestChildAux]

lemma bc_B2 : bestChildIdx mcB2 = some 0 := by
  show bestChildAux 2 [mcC1] 0 none ⊥ = some 0
  rw [bestChildAux, if_pos (EReal.bot_lt_coe _), bestChildAux]

lemma bc_T4 : bestChildIdx mcT4 = some 0 := by
  show bestChildAux 4 [mcA, mcB3] 0 none ⊥ = some 0
  rw [bestChildAux, if_pos (EReal.bot_lt_coe _), bestChildAux,
    if_neg (fun hc => absurd (EReal.coe_lt_coe_iff.mp hc) (not_lt.mpr uct_le_4)),
    bestChildAux]

lemma mctsStep_descend {σ α : Type} [Inhabited α] [DecidableEq α]
    (G : AGame σ α) (rng : ℕ → ℕ) (f : ℕ) (n : MNode σ α) (k : ℕ)
    (hterm : G.terminal n.gameState = false) (hopen : n.openActions.isEmpty = true) :
    mctsStep G rng (f + 1) n k = (bestChildIdx n).bind fun i =>
      (n.childNodes.get? i).bind fun c =>
        (mctsStep G rng f c k).map fun r =>
          (.mk n.gameState n.action (n.childNodes.set i r.1)
              (n.qValue + (-r.2.1)) (n.numberOfVisits + 1) n.openActions,
            -r.2.1, r.2.2.1,
            (n.numberOfVisits, n.childNodes.map MNode.numberOfVisits) :: r.2.2.2) := by
  rw [mctsStep, if_neg (by rw [hterm]; exact Bool.false_ne_true), if_pos hopen]

lemma mcts_step1 : mctsStep mctsG rngZero 10 (mkNode mctsG 0 none) 0 =
    some (mcT1, 1, 1, []) := rfl

lemma mcts_step2 : mctsStep mctsG rngZero 10 mcT1 1 = some (mcT2, -1, 3, []) := rfl

lemma mcts_stepB : mctsStep mctsG rngZero 9 mcB1 3 = some (mcB2, -1, 4, []) := rfl

lemma mcts_step3 : mctsStep mctsG rngZero 10 mcT2 3 =
    some (mcT3, 1, 4, [(2, [1, 1])]) := by
  rw [show (10 : ℕ) = 9 + 1 from rfl, mctsStep_descend mctsG rngZero 9 mcT2 3 rfl rfl,
    bc_T2, Option.some_bind, show mcT2.childNodes.get? 1 = some mcB1 from rfl,
    Option.some_bind, mcts_stepB, Option.map_some']
  rfl

lemma mcts_stepB2 : mctsStep mctsG rngZero 9 mcB2 4 =
    some (mcB3, -1, 4, [(2, [1])]) := by
  rw [show (9 : ℕ) = 8 + 1 from rfl, mctsStep_descend mctsG rngZero 8 mcB2 4 rfl rfl,
    bc_B2, Option.some_bind, show mcB2.childNodes.get? 0 = some mcC1 from rfl,
    Option.some_bind, show mctsStep mctsG rngZero 8 mcC1 4 = some (mcC2, 1, 4, []) from rfl,
    Option.map_some']
  rfl

lemma mcts_step4 : mctsStep mctsG rngZero 10 mcT3 4 =
    some (mcT4, 1, 4, [(3, [1, 2]), (2, [1])]) := by
  rw [show (10 : ℕ) = 9 + 1 from rfl, mctsStep_descend mctsG rngZero 9 mcT3 4 rfl rfl,
    bc_T3, Option.some_bind, show mcT3.childNodes.get? 1 = some mcB2 from rfl,
    Option.some_bind, mcts_stepB2, Option.map_some']
  rfl

lemma mcts_run4 : mctsRun mctsG rngZero 10 4 (mkNode mctsG 0 none) 0 =
    some (mcT4, 4, [(2, [1, 1]), (3, [1, 2]), (2, [1])]) := by
  rw [mctsRun, mcts_step1, Option.some_bind]
  rw [mctsRun, mcts_step2, Option.some_bind]
  rw [mctsRun, mcts_step3, Option.some_bind]
  rw [mctsRun, mcts_step4, Option.some_bind]
  rw [show mctsRun mctsG rngZero 10 0 mcT4 4 = some (mcT4, 4, []) from rfl,
    Option.map_some', Option.map_some', Option.map_some', Option.map_some']
  rfl

/-- C2 counterexample: the claim says `monte_carlo_tree_search` returns the
action of the root's most-visited child.  On `mctsG` with the all-zeros
oracle and four completed iterations, the final tree's children are the
child for action 10 with 1 visit and the child for action 11 with 3 visits,
yet the function returns action 10: `Node.best_child` maximises the UCT
score (whose exploration bonus favours the rarely-visited child), not the
visit count. -/
theorem C2_counterexample :
    monteCarloTreeSearch mctsG rngZero 10 4 0 = some 10 ∧
    mctsRun mctsG rngZero 10 4 (mkNode mctsG 0 none) 0 =
      some (mcT4, 4, [(2, [1, 1]), (3, [1, 2]), (2, [1])]) ∧
    mcT4.childNodes.map (fun c => (c.action, c.numberOfVisits)) =
      [(some 10, 1), (some 11, 3)] := by
  refine ⟨?_, mcts_run4, rfl⟩
  rw [monteCarloTreeSearch, mcts_run4, Option.some_bind, bc_T4, Option.some_bind,
    show mcT4.childNodes.get? 0 = some mcA from rfl, Option.some_bind]
  rfl

/-- C2 (amended): whatever action `monte_carlo_tree_search` returns after its
loop is the action of the root child selected by `Node.best_child` — the
first child maximising the UCT score, exploration bonus included — which, as
the counterexample shows, need not be the most-visited child. -/
theorem C2_amended {σ α : Type} [Inhabited α] [DecidableEq α]
    (G : AGame σ α) (rng : ℕ → ℕ) (fuel : ℕ) (iters : ℕ) (s : σ)
    (res : MNode σ α × ℕ × List (ℕ × List ℕ)) (a : α)
    (hrun : mctsRun G rng fuel iters (mkNode G s none) 0 = some res)
    (ha : monteCarloTreeSearch G rng fuel iters s = some a) :
    ∃ j cb, bestChildIdx res.1 = some j ∧ res.1.childNodes.get? j = some cb ∧
      cb.action = some a ∧
      ∀ x ∈ res.1.childNodes,
        uctScore res.1.numberOfVisits x ≤ uctScore res.1.numberOfVisits cb := by
  rw [monteCarloTreeSearch, hrun, Option.some_bind] at ha
  rcases Option.bind_eq_some.mp ha with ⟨j, hbc, h2⟩
  rcases Option.bind_eq_some.mp h2 with ⟨cb, hget, hact⟩
  cases hk : res.1.childNodes with
  | nil =>
    rw [hk] at hget
    exact absurd hget (by simp)
  | cons c rest =>
    obtain ⟨j', cb', hbc', hget', hmax⟩ := bestChildIdx_argmax res.1 c rest hk
    rw [hbc] at hbc'
    obtain rfl : j = j' := by injection hbc'
    rw [← hk, hget] at hget'
    obtain rfl : cb = cb' := by injection hget'
    refine ⟨j, cb, hbc, ?_, hact, ?_⟩
    · rw [← hk]
      exact hget
    · intro x hx
      exact hmax x hx

lemma bc_lineRoot1 : bestChildIdx lineRoot1 = some 0 := by
  show bestChildAux 1 [MNode.mk 1 (some 5) [] (-1) 1 []] 0 none ⊥ = some 0
  rw [bestChildAux, if_pos (EReal.bot_lt_coe _), bestChildAux]

lemma mcts_lineG_one : monteCarloTreeSearch lineG rngZero 5 1 0 = some 5 := by
  rw [monteCarloTreeSearch,
    show mctsRun lineG rngZero 5 1 (mkNode lineG 0 none) 0 = some (lineRoot1, 1, []) from rfl,
    Option.some_bind, bc_lineRoot1, Option.some_bind,
    show lineRoot1.childNodes.get? 0 = some (MNode.mk 1 (some 5) [] (-1) 1 []) from rfl,
    Option.some_bind]
  rfl

/-- Witness for C2 (amended) at a concrete input: the one-iteration run on
`lineG` returns 5, the action of the (unique, hence UCT-maximal) root
child. -/
theorem C2_amended_witness :
    mctsRun lineG rngZero 5 1 (mkNode lineG 0 none) 0 = some (lineRoot1, 1, []) ∧
    monteCarloTreeSearch lineG rngZero 5 1 0 = some 5 ∧
    ∃ j cb, bestChildIdx lineRoot1 = some j ∧
      lineRoot1.childNodes.get? j = some cb ∧ cb.action = some 5 ∧
      ∀ x ∈ lineRoot1.childNodes,
        uctScore lineRoot1.numberOfVisits x ≤ uctScore lineRoot1.numberOfVisits cb :=
  ⟨rfl, mcts_lineG_one,
    C2_amended lineG rngZero 5 1 0 (lineRoot1, 1, []) 5 rfl mcts_lineG_one⟩

/-- Witness for C6 at a concrete input: the four-iteration run on `mctsG`
makes three `best_child` traversal calls, with records
`(2, [1, 1])`, `(3, [1, 2])` and `(2, [1])`, all safe. -/
theorem C6_witness :
    (∀ s', mctsG.actions s' = [] → mctsG.terminal s' = true) ∧
    mctsRun mctsG rngZero 10 4 (mkNode mctsG 0 none) 0 =
      some (mcT4, 4, [(2, [1, 1]), (3, [1, 2]), (2, [1])]) ∧
    ∀ e ∈ [((2 : ℕ), [(1 : ℕ), 1]), (3, [1, 2]), (2, [1])], goodEntry e :=
  ⟨mctsG_no_actions_terminal, mcts_run4,
    C6_uct_preconditions mctsG rngZero 10 4 0
      (mcT4, 4, [(2, [1, 1]), (3, [1, 2]), (2, [1])])
      mctsG_no_actions_terminal mcts_run4⟩

/-- `CustomPlayer.get_action(state)`: below 2 plies, queue a uniformly random
legal action; otherwise queue `alpha_beta_search(state, 5)` (the MCTS call is
commented out in the source).  The boolean is ghost instrumentation
recording whether the call delegated to the minimax searcher; `none` models
`random.choice([])` raising `IndexError`. -/
def getAction {σ α : Type} [Inhabited α] (G : AGame σ α) (sc : σ → ℤ)
    (pid : ℕ) (rng : ℕ → ℕ) (s : σ) : Option α × Bool :=
  if G.plyCount s < 2 then
    (match G.actions s with
      | [] => none
      | a :: rest => some (pick rng 0 (a :: rest)), false)
  else
    ((alphaBetaSearch G sc pid s 5).2.1, true)

/-- C9 counterexample: the claim says `get_action` checks `terminal_test()`
before delegating, so the searchers are never invoked on a terminal state.
But `get_action` only checks `ply_count < 2`: on the terminal state 1 of
`lineG` (ply count 3) it still delegates to `alpha_beta_search`. -/
theorem C9_counterexample :
    lineG.terminal 1 = true ∧
      (getAction lineG (fun _ => 0) 0 rngZero 1).2 = true := by
  exact ⟨rfl, rfl⟩

/-- C9 (amended): `get_action` never consults `terminal_test()`; it delegates
to `alpha_beta_search` exactly when `state.ply_count >= 2`, terminal or not
(and plays a random legal action otherwise).  The MCTS engine is never
invoked at all: that call is commented out. -/
theorem C9_amended {σ α : Type} [Inhabited α] (G : AGame σ α) (sc : σ → ℤ)
    (pid : ℕ) (rng : ℕ → ℕ) (s : σ) :
    (getAction G sc pid rng s).2 = true ↔ 2 ≤ G.plyCount s := by
  rw [getAction]
  by_cases h : G.plyCount s < 2
  · rw [if_pos h]
    constructor
    · intro hc
      exact absurd hc (by simp)
    · intro h2
      exact absurd h2 (by omega)
  · rw [if_neg h]
    exact ⟨fun _ => not_lt.mp h, fun _ => rfl⟩
